import Mathlib

/-!
# The short-time Fourier transform core of demucs.cpp (`src/dsp.cpp`)

A shallow embedding of `pad_signal`, `stft_inner`, `istft_inner`, `demucscpp::stft` and
`demucscpp::istft`.

Modelling conventions.

* `float` samples are exact rationals (`ℚ`): rounding is not modelled, every arithmetic
  operation of the source is the exact field operation.
* `std::vector<T>` is `List T`; `v[i]` is `v.getD i 0` and `v[i] = x` is `v.set i x`.  The
  theorems are stated for workspaces whose buffers have the sizes the loops need, where every
  index used is in range.
* `Eigen::Tensor3dXcf spec` is its index function `(channel, bin, frame) ↦ value`;
  `Eigen::MatrixXf waveform` is the list of its rows.
* `Eigen::FFT<float>` is an external primitive: a pair of functions `fwd`, `inv`; what a
  theorem needs of them is a hypothesis.  `get_fft_cfg` sets the flag `Speedy`, whose value
  32767 contains the bits of `HalfSpectrum` and `Unscaled`: the transform configured there
  returns `W / 2 + 1` bins and its inverse is not scaled, `inv (fwd v) = W * v`.
* `FFT_WINDOW_SIZE`, `FFT_HOP_SIZE` and `struct stft_buffers` are declared in `dsp.hpp`;
  the two constants are parameters and the record has exactly the fields `dsp.cpp` uses.
* `for`/`while` loops whose trip count is not a literal are recursions on a fuel argument and
  return `none` when the fuel is exhausted; the theorems prove that the fuel supplied suffices.
* The walks through the frame loops used for index safety (`stft_inner_trace`,
  `istft_inner_trace`) keep the `int` variables of the source in the range of `int` and end in
  `LoopFault.signed_overflow` when a computation leaves it.
-/

namespace demucscpp

/-! ## Data model -/

/-- A `std::complex<float>` value with exact rational parts. -/
structure Cplx where
  re : ℚ
  im : ℚ
deriving DecidableEq

instance : Zero Cplx := ⟨⟨0, 0⟩⟩

/-- The compound assignment `z *= s` of a complex value by a real scalar. -/
def Cplx.scale (s : ℚ) (z : Cplx) : Cplx := ⟨z.re * s, z.im * s⟩

/-- The constants of `dsp.hpp` used by `dsp.cpp`.  `sqrt_window` is the value of the expression
`sqrt(float(FFT_WINDOW_SIZE))` (64 for the shipped window size 4096). -/
structure Consts where
  FFT_WINDOW_SIZE : Nat
  FFT_HOP_SIZE : Nat
  sqrt_window : ℚ

/-- The external transform primitive `Eigen::FFT<float>` returned by `get_fft_cfg`: `fwd` is
`cfg.fwd(dst, src)`, from a real frame to a complex spectrum, and `inv` is `cfg.inv(dst, src)`,
from a complex spectrum to a real frame. -/
structure FFT where
  fwd : List ℚ → List Cplx
  inv : List Cplx → List ℚ

/-- The spectrogram tensor, indexed by channel, frequency bin and frame. -/
abbrev Tensor := Nat → Nat → Nat → Cplx

/-- The assignment `spec(channel, i, j) = v`. -/
def tensor_set (s : Tensor) (channel i j : Nat) (v : Cplx) : Tensor :=
  fun c a f => if c = channel ∧ a = i ∧ f = j then v else s c a f

/-- The workspace `struct stft_buffers`, with the fields read or written by `dsp.cpp`. -/
structure stft_buffers where
  nb_frames : Nat
  nb_bins : Nat
  pad : Nat
  padded_waveform_mono_in : List ℚ
  padded_waveform_mono_out : List ℚ
  windowed_waveform_mono : List ℚ
  complex_spec_mono : List (List Cplx)
  pad_start : List ℚ
  pad_end : List ℚ
  waveform : List (List ℚ)
  spec : Tensor
  window : List ℚ
  normalized_window : List ℚ

/-! ## `pad_signal` -/

/-- The algorithm `std::copy_n(src.begin() + first, count, dst.begin() + result)`. -/
def copy_n (src : List ℚ) (first count : Nat) (dst : List ℚ) (result : Nat) : List ℚ :=
  (List.range count).foldl (fun d i => d.set (result + i) (src.getD (first + i) 0)) dst

/-- The function `pad_signal` (dsp.cpp, lines 110-129). -/
def pad_signal (b : stft_buffers) : stft_buffers :=
  let pad_start1 := copy_n b.padded_waveform_mono_in b.pad b.pad b.pad_start 0
  let pad_end1 := copy_n b.padded_waveform_mono_in
    (b.padded_waveform_mono_in.length - 2 * b.pad) b.pad b.pad_end 0
  let pad_start2 := pad_start1.reverse
  let pad_end2 := pad_end1.reverse
  let in1 := copy_n pad_start2 0 b.pad b.padded_waveform_mono_in 0
  let in2 := copy_n pad_end2 0 b.pad in1 (in1.length - b.pad)
  { b with pad_start := pad_start2, pad_end := pad_end2, padded_waveform_mono_in := in2 }

/-! ## `stft_inner` -/

/-- The windowing loop of `stft_inner` (lines 222-227) for the frame starting at `start`. -/
def apply_window (k : Consts) (b : stft_buffers) (start : Nat) : List ℚ :=
  (List.range k.FFT_WINDOW_SIZE).foldl
    (fun w i => w.set i (b.padded_waveform_mono_in.getD (start + i) 0 * b.window.getD i 0))
    b.windowed_waveform_mono

/-- The loop `for (i = 0; i < n; ++i) row[i] *= s` (lines 233-237 and 255-259). -/
def scale_bins (n : Nat) (s : ℚ) (row : List Cplx) : List Cplx :=
  (List.range n).foldl (fun r i => r.set i ((r.getD i 0).scale s)) row

/-- One iteration of the frame loop of `stft_inner` (lines 221-238). -/
def stft_frame (k : Consts) (cfg : FFT) (b : stft_buffers) (start frame_idx : Nat) :
    stft_buffers :=
  let windowed := apply_window k b start
  let table1 := b.complex_spec_mono.set frame_idx (cfg.fwd windowed)
  let table2 := table1.set frame_idx
    (scale_bins (k.FFT_WINDOW_SIZE / 2 + 1) (1 / k.sqrt_window) (table1.getD frame_idx []))
  { b with windowed_waveform_mono := windowed, complex_spec_mono := table2 }

/-- The frame loop of `stft_inner` (lines 216-239): `start` advances by the hop while
`start <= bound`; the result carries the final value of `frame_idx`.  The bound is computed in
`size_t` (see `stft_bound`); the increments of `start` and `frame_idx` are not reduced modulo
the word size, their values stay below `bound + hop`. -/
def stft_loop (k : Consts) (cfg : FFT) (bound : Nat) :
    Nat → Nat → Nat → stft_buffers → Option (stft_buffers × Nat)
  | 0, start, frame_idx, b => if start ≤ bound then none else some (b, frame_idx)
  | fuel + 1, start, frame_idx, b =>
    if start ≤ bound then
      stft_loop k cfg bound fuel (start + k.FFT_HOP_SIZE) (frame_idx + 1)
        (stft_frame k cfg b start frame_idx)
    else some (b, frame_idx)

/-- The loop bound `padded_waveform_mono_in.size() - FFT_WINDOW_SIZE`, computed in `size_t`. -/
def stft_bound (k : Consts) (b : stft_buffers) : Nat :=
  (b.padded_waveform_mono_in.length + 2 ^ 64 - k.FFT_WINDOW_SIZE) % 2 ^ 64

/-- The function `stft_inner` together with the final value of its local `frame_idx`. -/
def stft_inner_run (k : Consts) (cfg : FFT) (b : stft_buffers) : Option (stft_buffers × Nat) :=
  stft_loop k cfg (stft_bound k b) (stft_bound k b + 1) 0 0 b

/-- The function `stft_inner` (lines 210-240). -/
def stft_inner (k : Consts) (cfg : FFT) (b : stft_buffers) : Option stft_buffers :=
  (stft_inner_run k cfg b).map Prod.fst

/-- The number of iterations of the frame loop of `stft_inner`. -/
def stft_inner_frames (k : Consts) (cfg : FFT) (b : stft_buffers) : Option Nat :=
  (stft_inner_run k cfg b).map Prod.snd

/-! ## `demucscpp::stft` -/

/-- The copy loops of `stft` (lines 169-175): `spec(channel, i, j) = complex_spec_mono[j][i]`. -/
def store_spec (b : stft_buffers) (channel : Nat) : Tensor :=
  (List.range b.nb_bins).foldl
    (fun s i => (List.range b.nb_frames).foldl
      (fun s j => tensor_set s channel i j ((b.complex_spec_mono.getD j []).getD i 0)) s)
    b.spec

/-- Lines 153-156 of `stft`: the row of `channel` is copied to offset `pad` of the padded
buffer. -/
def load_row (b : stft_buffers) (channel : Nat) : stft_buffers :=
  let row_vec := b.waveform.getD channel []
  { b with padded_waveform_mono_in :=
      copy_n row_vec 0 row_vec.length b.padded_waveform_mono_in b.pad }

/-- The body of the channel loop of `stft` (lines 153-175). -/
def stft_channel (k : Consts) (cfg : FFT) (b : stft_buffers) (channel : Nat) :
    Option stft_buffers :=
  (stft_inner k cfg (pad_signal (load_row b channel))).map
    (fun b3 => { b3 with spec := store_spec b3 channel })

/-- The function `demucscpp::stft` (lines 142-177). -/
def stft (k : Consts) (cfg : FFT) (b : stft_buffers) : Option stft_buffers :=
  (List.range 2).foldlM (fun b channel => stft_channel k cfg b channel) b

/-! ## `istft_inner` and `demucscpp::istft` -/

/-- The overlap-add loop of `istft_inner` (lines 265-274) for the frame starting at `start`. -/
def overlap_add (k : Consts) (b : stft_buffers) (start : Nat) : List ℚ :=
  (List.range k.FFT_WINDOW_SIZE).foldl
    (fun o i => o.set (start + i)
      (o.getD (start + i) 0 +
        b.windowed_waveform_mono.getD i 0 * b.window.getD i 0 * 1 / (k.FFT_WINDOW_SIZE : ℚ) /
          (b.normalized_window.getD (start + i) 0 + 1 / 100000000)))
    b.padded_waveform_mono_out

/-- One iteration of the frame loop of `istft_inner` (lines 253-274). -/
def istft_frame (k : Consts) (cfg : FFT) (b : stft_buffers) (start : Nat) : stft_buffers :=
  let frame_idx := start / k.FFT_HOP_SIZE
  let table := b.complex_spec_mono.set frame_idx
    (scale_bins (k.FFT_WINDOW_SIZE / 2 + 1) k.sqrt_window (b.complex_spec_mono.getD frame_idx []))
  let b1 := { b with complex_spec_mono := table,
                     windowed_waveform_mono := cfg.inv (table.getD frame_idx []) }
  { b1 with padded_waveform_mono_out := overlap_add k b1 start }

/-- The frame loop of `istft_inner` (lines 250-275): `start` advances by the hop while
`start < bound`, where `bound = nb_frames * FFT_HOP_SIZE` (taken without `int` overflow). -/
def istft_loop (k : Consts) (cfg : FFT) (bound : Nat) : Nat → Nat → stft_buffers →
    Option stft_buffers
  | 0, start, b => if start < bound then none else some b
  | fuel + 1, start, b =>
    if start < bound then
      istft_loop k cfg bound fuel (start + k.FFT_HOP_SIZE) (istft_frame k cfg b start)
    else some b

/-- The function `istft_inner` (lines 242-276). -/
def istft_inner (k : Consts) (cfg : FFT) (b : stft_buffers) : Option stft_buffers :=
  istft_loop k cfg (b.nb_frames * k.FFT_HOP_SIZE) (b.nb_frames * k.FFT_HOP_SIZE) 0
    { b with padded_waveform_mono_out := List.replicate b.padded_waveform_mono_out.length 0 }

/-- The copy loops of `istft` (lines 191-197): `complex_spec_mono[j][i] = spec(channel, i, j)`. -/
def load_spec (b : stft_buffers) (channel : Nat) : List (List Cplx) :=
  (List.range b.nb_bins).foldl
    (fun t i => (List.range b.nb_frames).foldl
      (fun t j => t.set j ((t.getD j []).set i (b.spec channel i j))) t)
    b.complex_spec_mono

/-- The body of the channel loop of `istft` (lines 190-206). -/
def istft_channel (k : Consts) (cfg : FFT) (b : stft_buffers) (channel : Nat) :
    Option stft_buffers :=
  (istft_inner k cfg { b with complex_spec_mono := load_spec b channel }).map
    (fun b2 =>
      let row := (b2.padded_waveform_mono_out.drop b2.pad).take
        (b2.padded_waveform_mono_out.length - k.FFT_WINDOW_SIZE)
      { b2 with waveform := b2.waveform.set channel row })

/-- The function `demucscpp::istft` (lines 179-208). -/
def istft (k : Consts) (cfg : FFT) (b : stft_buffers) : Option stft_buffers :=
  (List.range 2).foldlM (fun b channel => istft_channel k cfg b channel) b

/-! ## `load_audio` and `write_audio_file` -/

/-- The decoded file `nqr::AudioData` (libnyquist), with the fields `dsp.cpp` reads or writes:
`int sampleRate`, `int channelCount` and the interleaved `samples`. -/
structure AudioData where
  sampleRate : Int
  channelCount : Int
  samples : List ℚ

/-- The ways `load_audio` ends without returning a matrix: the two `exit(1)` calls (lines 30
and 42) and the division `samples.size() / channelCount` of line 34, evaluated before the
channel count is checked, whose divisor may be zero. -/
inductive LoadError where
  | unsupported_sample_rate
  | unsupported_channel_count
  | division_by_zero
deriving DecidableEq

/-- The assignment `m(r, c) = v` on a matrix held as the list of its rows. -/
def matrix_set (m : List (List ℚ)) (r c : Nat) (v : ℚ) : List (List ℚ) :=
  m.set r ((m.getD r []).set c v)

/-- The mono loop of `load_audio` (lines 54-58). -/
def load_mono (samples : List ℚ) (N : Nat) (ret : List (List ℚ)) : List (List ℚ) :=
  (List.range N).foldl
    (fun ret i => matrix_set (matrix_set ret 0 i (samples.getD i 0)) 1 i (samples.getD i 0)) ret

/-- The stereo loop of `load_audio` (lines 63-67). -/
def load_stereo (samples : List ℚ) (N : Nat) (ret : List (List ℚ)) : List (List ℚ) :=
  (List.range N).foldl
    (fun ret i =>
      matrix_set (matrix_set ret 0 i (samples.getD (2 * i) 0)) 1 i (samples.getD (2 * i + 1) 0))
    ret

/-- The function `demucscpp::load_audio` (lines 16-71) on the data the decoder produced;
`SUPPORTED_SAMPLE_RATE` is a constant of `dsp.hpp`.  In `samples.size() / channelCount` the
`int` divisor is converted to `size_t`. -/
def load_audio (SUPPORTED_SAMPLE_RATE : Int) (fileData : AudioData) :
    Except LoadError (List (List ℚ)) :=
  if fileData.sampleRate ≠ SUPPORTED_SAMPLE_RATE then
    Except.error LoadError.unsupported_sample_rate
  else if fileData.channelCount % 2 ^ 64 = 0 then
    Except.error LoadError.division_by_zero
  else if fileData.channelCount ≠ 2 ∧ fileData.channelCount ≠ 1 then
    Except.error LoadError.unsupported_channel_count
  else
    let N := fileData.samples.length / (fileData.channelCount % 2 ^ 64).toNat
    let ret := List.replicate 2 (List.replicate N (0 : ℚ))
    if fileData.channelCount = 1 then Except.ok (load_mono fileData.samples N ret)
    else Except.ok (load_stereo fileData.samples N ret)

/-- The interleaving loop of `write_audio_file` (lines 90-94). -/
def interleave (waveform : List (List ℚ)) (cols : Nat) (samples : List ℚ) : List ℚ :=
  (List.range cols).foldl
    (fun s i => (s.set (2 * i) ((waveform.getD 0 []).getD i 0)).set (2 * i + 1)
      ((waveform.getD 1 []).getD i 0))
    samples

/-- The function `demucscpp::write_audio_file` (lines 74-100) up to the call of the encoder:
the `AudioData` it hands to `encode_wav_to_disk`.  `waveform.cols()` is the length of row 0. -/
def write_audio_file (SUPPORTED_SAMPLE_RATE : Int) (waveform : List (List ℚ)) : AudioData :=
  let cols := (waveform.getD 0 []).length
  { sampleRate := SUPPORTED_SAMPLE_RATE
    channelCount := 2
    samples := interleave waveform cols (List.replicate (cols * 2) 0) }

/-! ## Workspace shape and the window generator -/

/-- Modelled from the spec: the normalization array of the window generator (section 4.1; the
generator is in `dsp.hpp`, which is not among the sources).  Entry `j` is the sum, over the
frame starts `s = f * hop` with `s ≤ j < s + W`, of `window[j - s]²`. -/
def window_sumsquare (k : Consts) (nb_frames len : Nat) (window : List ℚ) : List ℚ :=
  (List.range len).map (fun j =>
    ((List.range nb_frames).map (fun f =>
      if f * k.FFT_HOP_SIZE ≤ j ∧ j < f * k.FFT_HOP_SIZE + k.FFT_WINDOW_SIZE then
        (window.getD (j - f * k.FFT_HOP_SIZE) 0) ^ 2
      else 0)).sum)

/-- Modelled from the spec: the sizes the constructor of `struct stft_buffers` (in `dsp.hpp`,
not among the sources) gives the workspace for an input of `N` samples (section 3): an even
window `W = 2 * pad`, `W / 2 + 1` bins, `N / hop + 1` frames, padded buffers of `N + W`
samples, scratch vectors of `pad` samples, a window and a frame buffer of `W` samples, a frame
table of `nb_frames` rows and a waveform of two rows of `N` samples. -/
def WellFormed (k : Consts) (N : Nat) (b : stft_buffers) : Prop :=
  k.FFT_WINDOW_SIZE = 2 * b.pad ∧
  b.nb_bins = k.FFT_WINDOW_SIZE / 2 + 1 ∧
  b.nb_frames = N / k.FFT_HOP_SIZE + 1 ∧
  b.padded_waveform_mono_in.length = N + k.FFT_WINDOW_SIZE ∧
  b.padded_waveform_mono_out.length = N + k.FFT_WINDOW_SIZE ∧
  b.windowed_waveform_mono.length = k.FFT_WINDOW_SIZE ∧
  b.complex_spec_mono.length = b.nb_frames ∧
  b.pad_start.length = b.pad ∧
  b.pad_end.length = b.pad ∧
  b.waveform.length = 2 ∧
  (∀ row ∈ b.waveform, row.length = N) ∧
  b.window.length = k.FFT_WINDOW_SIZE ∧
  b.normalized_window.length = N + k.FFT_WINDOW_SIZE

instance (k : Consts) (N : Nat) (b : stft_buffers) : Decidable (WellFormed k N b) := by
  unfold WellFormed
  infer_instance

/-- Modelled from the spec: the rows of the frame table as the constructor of
`struct stft_buffers` (in `dsp.hpp`, not among the sources) sizes them (section 3, "a sequence of
nb_frames complex vectors, each of length W/2+1"): every row holds exactly `W / 2 + 1` bins, so
that the inverse primitive, which takes the transform length from the length of the row it is
given, returns a frame of `W` samples. -/
def TableShaped (k : Consts) (b : stft_buffers) : Prop :=
  ∀ row ∈ b.complex_spec_mono, row.length = k.FFT_WINDOW_SIZE / 2 + 1

instance (k : Consts) (b : stft_buffers) : Decidable (TableShaped k b) := by
  unfold TableShaped
  infer_instance

/-- The frame `windowed[i] = padded[start + i] * window[i]`, `i < W`. -/
def windowed_frame (k : Consts) (padded window : List ℚ) (start : Nat) : List ℚ :=
  (List.range k.FFT_WINDOW_SIZE).map (fun i => padded.getD (start + i) 0 * window.getD i 0)

/-- The padded buffer `stft` transforms for `channel`: the row of the channel copied to offset
`pad` of the buffer as the previous channel left it, then edge-padded by `pad_signal`. -/
def padded_channel (b : stft_buffers) : Nat → List ℚ
  | 0 => (pad_signal (load_row b 0)).padded_waveform_mono_in
  | c + 1 => (pad_signal (load_row
      { b with padded_waveform_mono_in := padded_channel b c } (c + 1))).padded_waveform_mono_in

/-- The bins `spec(channel, 0 .. nb_bins - 1, frame)` of one frame of the spectrogram. -/
def spec_frame (b : stft_buffers) (channel frame : Nat) : List Cplx :=
  (List.range b.nb_bins).map (fun i => b.spec channel i frame)

/-! ## Definitions used to state the effect of the loops -/

/-- The first `m` iterations of the frame loop of `stft_inner`, entered with the given `start`
and `frame_idx`. -/
def stft_frames (k : Consts) (cfg : FFT) (b : stft_buffers) (start frame_idx m : Nat) :
    stft_buffers :=
  (List.range m).foldl
    (fun b i => stft_frame k cfg b (start + i * k.FFT_HOP_SIZE) (frame_idx + i)) b

/-- The row `stft_inner` leaves in the frame table for the frame starting at `start`:
the forward transform of the windowed frame, its first `W / 2 + 1` bins scaled by
`1 / sqrt(W)`. -/
def frame_row (k : Consts) (cfg : FFT) (padded window : List ℚ) (start : Nat) : List Cplx :=
  scale_bins (k.FFT_WINDOW_SIZE / 2 + 1) (1 / k.sqrt_window)
    (cfg.fwd (windowed_frame k padded window start))

/-- The padded buffer of a row of `N ≥ P` samples: the row at offset `P`, the left edge the
reversal of its first `P` samples, the right edge the reversal of its last `P` samples. -/
def mirror_pad (P : Nat) (row : List ℚ) : List ℚ :=
  (List.range (row.length + 2 * P)).map (fun j =>
    if j < P then row.getD (P - 1 - j) 0
    else if j < P + row.length then row.getD (j - P) 0
    else row.getD (row.length - 1 - (j - (P + row.length))) 0)

/-- What `stft` leaves in a workspace `b` well-formed for `N` samples: the shape, waveform and
windows are those of `b`; the padded buffer and the frame table hold channel 1; the slices
`spec(c, ., .)`, `c < 2`, hold the scaled transforms of the frames of channel `c`. -/
def StftPost (k : Consts) (cfg : FFT) (N : Nat) (b r : stft_buffers) : Prop :=
  WellFormed k N r ∧
  r.waveform = b.waveform ∧ r.window = b.window ∧
  r.normalized_window = b.normalized_window ∧
  r.nb_frames = b.nb_frames ∧ r.nb_bins = b.nb_bins ∧ r.pad = b.pad ∧
  r.padded_waveform_mono_out = b.padded_waveform_mono_out ∧
  r.padded_waveform_mono_in = padded_channel b 1 ∧
  (∀ j, j < b.nb_frames → r.complex_spec_mono.getD j [] =
    frame_row k cfg (padded_channel b 1) b.window (j * k.FFT_HOP_SIZE)) ∧
  (∀ c a f, r.spec c a f =
    if c < 2 ∧ a < b.nb_bins ∧ f < b.nb_frames then
      (frame_row k cfg (padded_channel b c) b.window (f * k.FFT_HOP_SIZE)).getD a 0
    else b.spec c a f)

/-- The first `m` iterations of the frame loop of `istft_inner`, entered with the given
`start`. -/
def istft_frames (k : Consts) (cfg : FFT) (b : stft_buffers) (start m : Nat) : stft_buffers :=
  (List.range m).foldl (fun b i => istft_frame k cfg b (start + i * k.FFT_HOP_SIZE)) b

/-- The term the overlap-add loop of `istft_inner` adds to `padded_waveform_mono_out[p]` for
the frame starting at `start` whose scaled table row is `row`. -/
def ola_term (k : Consts) (cfg : FFT) (row : List Cplx) (window norm : List ℚ)
    (start p : Nat) : ℚ :=
  (cfg.inv row).getD (p - start) 0 * window.getD (p - start) 0 * 1 /
    (k.FFT_WINDOW_SIZE : ℚ) / (norm.getD p 0 + 1 / 100000000)

/-- The value section 4.4 of the specification gives sample `n` of channel `c` after the
inverse transform: the sum, over the frames `f < nb_frames` with `f * H ≤ n + P < f * H + W`, of
`InverseFFT(sqrt(W) * spec(c, ., f))[n + P - f * H] * window[n + P - f * H] / W /
(normalization[n + P] + 1e-8)`. -/
def overlap_add_sum (k : Consts) (cfg : FFT) (b : stft_buffers) (c n : Nat) : ℚ :=
  ((List.range b.nb_frames).map (fun f =>
    if f * k.FFT_HOP_SIZE ≤ n + b.pad ∧ n + b.pad < f * k.FFT_HOP_SIZE + k.FFT_WINDOW_SIZE then
      (cfg.inv ((spec_frame b c f).map (Cplx.scale k.sqrt_window))).getD
          (n + b.pad - f * k.FFT_HOP_SIZE) 0 *
        b.window.getD (n + b.pad - f * k.FFT_HOP_SIZE) 0 / (k.FFT_WINDOW_SIZE : ℚ) /
        (b.normalized_window.getD (n + b.pad) 0 + 1 / 100000000)
    else 0)).sum

/-- The sum of the squared window values of the frames `f < nb_frames` that cover position
`p` of the padded buffer. -/
def window_sq_cover (k : Consts) (nb_frames : Nat) (window : List ℚ) (p : Nat) : ℚ :=
  ((List.range nb_frames).map (fun f =>
    if f * k.FFT_HOP_SIZE ≤ p ∧ p < f * k.FFT_HOP_SIZE + k.FFT_WINDOW_SIZE then
      (window.getD (p - f * k.FFT_HOP_SIZE) 0) ^ 2
    else 0)).sum

/-- The indices `std::copy_n(first, count, result)` touches in a buffer, as offsets from
`begin()`: `from + 0, ..., from + count - 1` (in the source buffer when `from` is the offset of
`first`, in the destination when it is the offset of `result`). -/
def copy_n_indices (start : Int) (count : Nat) : List Int :=
  (List.range count).map (fun (i : Nat) => start + (i : Int))

/-- The indices of `padded_waveform_mono_in` that `pad_signal` reads (lines 114-117): `pad`
slots from `begin() + pad` and `pad` slots from `end() - 2 * pad`. -/
def pad_signal_reads (b : stft_buffers) : List Int :=
  copy_n_indices b.pad b.pad ++
    copy_n_indices ((b.padded_waveform_mono_in.length : Int) - 2 * b.pad) b.pad

/-- The indices of `padded_waveform_mono_in` that `pad_signal` writes (lines 123-128): `pad`
slots from `begin()` and `pad` slots from `end() - pad`. -/
def pad_signal_writes (b : stft_buffers) : List Int :=
  copy_n_indices 0 b.pad ++ copy_n_indices ((b.padded_waveform_mono_in.length : Int) - b.pad) b.pad

/-- The indices of the scratch vector `pad_start` (and likewise of `pad_end`) that `pad_signal`
touches: `pad` slots from `begin()` when it is filled and when it is copied back, and the
whole vector when it is reversed. -/
def pad_signal_scratch_indices (b : stft_buffers) (scratch : List ℚ) : List Int :=
  copy_n_indices 0 b.pad ++ copy_n_indices 0 scratch.length ++ copy_n_indices 0 b.pad

/-- The largest value of the type `int` (32 bits), the type of the loop variables `start`,
`frame_idx` and `i` of `istft_inner` and of `frame_idx` and `i` of `stft_inner`. -/
def INT_MAX : Nat := 2147483647

/-- The ways the walk through a frame loop ends without a list of iterations: an `int`
computation leaves the range of `int` (signed overflow), or the fuel is exhausted. -/
inductive LoopFault where
  | signed_overflow
  | out_of_fuel
deriving DecidableEq

/-- The pairs `(start, frame_idx)` of the iterations of the frame loop of `stft_inner`
(lines 216-239).  `start` is a `size_t`: the increment `start += FFT_HOP_SIZE` is reduced modulo
`2 ^ 64`.  `frame_idx` is an `int`: the increment `frame_idx++` overflows when `frame_idx` is
`INT_MAX`. -/
def stft_loop_trace (k : Consts) (bound : Nat) :
    Nat → Nat → Nat → Except LoopFault (List (Nat × Nat))
  | 0, start, _ => if start ≤ bound then Except.error LoopFault.out_of_fuel else Except.ok []
  | fuel + 1, start, frame_idx =>
    if start ≤ bound then
      if INT_MAX ≤ frame_idx then Except.error LoopFault.signed_overflow
      else
        (stft_loop_trace k bound fuel ((start + k.FFT_HOP_SIZE) % 2 ^ 64) (frame_idx + 1)).map
          (fun t => (start, frame_idx) :: t)
    else Except.ok []

/-- The pairs `(start, frame_idx)` of the iterations of `stft_inner`. -/
def stft_inner_trace (k : Consts) (b : stft_buffers) : Except LoopFault (List (Nat × Nat)) :=
  stft_loop_trace k (stft_bound k b) (stft_bound k b + 1) 0 0

/-- The pairs `(start, frame_idx)` of the iterations of the frame loop of `istft_inner`
(lines 250-275); `frame_idx = start / FFT_HOP_SIZE`.  `start` is an `int`: the index
`start + i`, `i < FFT_WINDOW_SIZE`, and the increment `start += FFT_HOP_SIZE` overflow when
they exceed `INT_MAX`. -/
def istft_loop_trace (k : Consts) (bound : Nat) :
    Nat → Nat → Except LoopFault (List (Nat × Nat))
  | 0, start => if start < bound then Except.error LoopFault.out_of_fuel else Except.ok []
  | fuel + 1, start =>
    if start < bound then
      if INT_MAX < start + (k.FFT_WINDOW_SIZE - 1) then Except.error LoopFault.signed_overflow
      else if INT_MAX < start + k.FFT_HOP_SIZE then Except.error LoopFault.signed_overflow
      else
        (istft_loop_trace k bound fuel (start + k.FFT_HOP_SIZE)).map
          (fun t => (start, start / k.FFT_HOP_SIZE) :: t)
    else Except.ok []

/-- The pairs `(start, frame_idx)` of the iterations of `istft_inner` on a workspace of
`nb_frames` frames.  The loop bound `stft_buf.nb_frames * FFT_HOP_SIZE` is a product of two
`int` values, which overflows when it exceeds `INT_MAX`. -/
def istft_inner_trace (k : Consts) (nb_frames : Nat) : Except LoopFault (List (Nat × Nat)) :=
  if INT_MAX < nb_frames * k.FFT_HOP_SIZE then Except.error LoopFault.signed_overflow
  else istft_loop_trace k (nb_frames * k.FFT_HOP_SIZE) (nb_frames * k.FFT_HOP_SIZE) 0

/-- Two frame tables agree beyond the first `n` entries of every row: they have the same
number of rows, rows of the same lengths, and the same entries at the positions `≥ n`. -/
def AgreeBeyond (n : Nat) (t t2 : List (List Cplx)) : Prop :=
  t.length = t2.length ∧
  ∀ j, (t.getD j []).length = (t2.getD j []).length ∧
    ∀ i, n ≤ i → (t.getD j []).getD i 0 = (t2.getD j []).getD i 0

/-- The value `istft` leaves in `padded_waveform_mono_out[p]` when it processes `channel` from
the workspace `b`: the overlap-add terms of the frames that cover `p`, each from the table row
refilled from the spectrogram and scaled by `sqrt(W)`. -/
def ola_out (k : Consts) (cfg : FFT) (b : stft_buffers) (channel p : Nat) : ℚ :=
  ((List.range b.nb_frames).map (fun f =>
    if f * k.FFT_HOP_SIZE ≤ p ∧ p < f * k.FFT_HOP_SIZE + k.FFT_WINDOW_SIZE ∧
        p < b.padded_waveform_mono_out.length then
      ola_term k cfg
        (scale_bins (k.FFT_WINDOW_SIZE / 2 + 1) k.sqrt_window ((load_spec b channel).getD f []))
        b.window b.normalized_window (f * k.FFT_HOP_SIZE) p
    else 0)).sum

/-! ## A concrete instance: window 4, hop 2 -/

/-- The constants `FFT_WINDOW_SIZE = 4`, `FFT_HOP_SIZE = 2`, with `sqrt(4) = 2`. -/
def consts4 : Consts := ⟨4, 2, 2⟩

/-- The 4-point discrete Fourier transform as `get_fft_cfg` configures it: `fwd` returns the
bins `0 .. 2` of the transform of a real frame (half spectrum), `inv` is the unscaled inverse of
a real transform, which reads the bins `0 .. 2`; `inv (fwd v) = 4 * v`. -/
def fft4 : FFT where
  fwd
    | [a, b, c, d] => [⟨a + b + c + d, 0⟩, ⟨a - c, d - b⟩, ⟨a - b + c - d, 0⟩]
    | _ => []
  inv
    | x0 :: x1 :: x2 :: _ =>
      [x0.re + 2 * x1.re + x2.re, x0.re - 2 * x1.im - x2.re,
        x0.re - 2 * x1.re + x2.re, x0.re + 2 * x1.im - x2.re]
    | _ => []

/-- The periodic Hann window of length 4. -/
def hann4 : List ℚ := [0, 1 / 2, 1, 1 / 2]

/-- A workspace for window 4, hop 2 and the waveform `[[1,2,3,4,5,6],[6,5,4,3,2,1]]`. -/
def scenario_buffers : stft_buffers where
  nb_frames := 4
  nb_bins := 3
  pad := 2
  padded_waveform_mono_in := List.replicate 10 0
  padded_waveform_mono_out := List.replicate 10 0
  windowed_waveform_mono := List.replicate 4 0
  complex_spec_mono := List.replicate 4 (List.replicate 3 0)
  pad_start := [0, 0]
  pad_end := [0, 0]
  waveform := [[1, 2, 3, 4, 5, 6], [6, 5, 4, 3, 2, 1]]
  spec := fun _ _ _ => 0
  window := hann4
  normalized_window := window_sumsquare consts4 4 10 hann4

/-- A padded buffer of 8 slots holding the ramp `1, 2, 3, 4` at offset `pad = 2`. -/
def ramp_buffers : stft_buffers where
  nb_frames := 3
  nb_bins := 3
  pad := 2
  padded_waveform_mono_in := [0, 0, 1, 2, 3, 4, 0, 0]
  padded_waveform_mono_out := List.replicate 8 0
  windowed_waveform_mono := List.replicate 4 0
  complex_spec_mono := List.replicate 3 (List.replicate 3 0)
  pad_start := [0, 0]
  pad_end := [0, 0]
  waveform := [[1, 2, 3, 4], [1, 2, 3, 4]]
  spec := fun _ _ _ => 0
  window := hann4
  normalized_window := window_sumsquare consts4 3 8 hann4

/-- A second workspace for the same scenario: row 1 and the window are those of
`scenario_buffers`; row 0, the padded buffer, the scratch vectors, the frame table and the
spectrogram are different. -/
def scenario_buffers_alt : stft_buffers where
  nb_frames := 4
  nb_bins := 3
  pad := 2
  padded_waveform_mono_in := List.replicate 10 7
  padded_waveform_mono_out := List.replicate 10 5
  windowed_waveform_mono := List.replicate 4 3
  complex_spec_mono := List.replicate 4 (List.replicate 4 ⟨1, 1⟩)
  pad_start := [8, 8]
  pad_end := [9, 9]
  waveform := [[9, 9, 9, 9, 9, 9], [6, 5, 4, 3, 2, 1]]
  spec := fun _ _ _ => ⟨2, 3⟩
  window := hann4
  normalized_window := window_sumsquare consts4 4 10 hann4

/-- A workspace for window 4, hop 2 and an all-zero waveform of 6 samples per channel; the
scratch buffers and the spectrogram hold arbitrary values. -/
def zero_wave_buffers : stft_buffers where
  nb_frames := 4
  nb_bins := 3
  pad := 2
  padded_waveform_mono_in := List.replicate 10 7
  padded_waveform_mono_out := List.replicate 10 5
  windowed_waveform_mono := List.replicate 4 3
  complex_spec_mono := List.replicate 4 [⟨1, 1⟩, ⟨2, -1⟩, ⟨3, 5⟩]
  pad_start := [8, 8]
  pad_end := [9, 9]
  waveform := [[0, 0, 0, 0, 0, 0], [0, 0, 0, 0, 0, 0]]
  spec := fun _ _ _ => ⟨2, 3⟩
  window := hann4
  normalized_window := window_sumsquare consts4 4 10 hann4

/-- A workspace for window 4, hop 2 whose spectrogram is all zero; the waveform and the scratch
buffers hold arbitrary values. -/
def zero_spec_buffers : stft_buffers where
  nb_frames := 4
  nb_bins := 3
  pad := 2
  padded_waveform_mono_in := List.replicate 10 7
  padded_waveform_mono_out := List.replicate 10 5
  windowed_waveform_mono := List.replicate 4 3
  complex_spec_mono := List.replicate 4 [⟨1, 1⟩, ⟨2, -1⟩, ⟨3, 5⟩]
  pad_start := [8, 8]
  pad_end := [9, 9]
  waveform := [[1, 2, 3, 4, 5, 6], [6, 5, 4, 3, 2, 1]]
  spec := fun _ _ _ => 0
  window := hann4
  normalized_window := window_sumsquare consts4 4 10 hann4

/-- A workspace for window 4 (`P = 2`), hop 2 and a waveform of `N = 1` sample per channel,
shorter than the pad length. -/
def short_buffers : stft_buffers where
  nb_frames := 1
  nb_bins := 3
  pad := 2
  padded_waveform_mono_in := List.replicate 5 0
  padded_waveform_mono_out := List.replicate 5 0
  windowed_waveform_mono := List.replicate 4 0
  complex_spec_mono := [List.replicate 3 0]
  pad_start := [0, 0]
  pad_end := [0, 0]
  waveform := [[7], [9]]
  spec := fun _ _ _ => 0
  window := hann4
  normalized_window := window_sumsquare consts4 1 5 hann4

/-- A decoded mono file of 3 samples at 44100 Hz. -/
def mono_file : AudioData := ⟨44100, 1, [1, 2, 3]⟩

/-- A decoded stereo file of 3 frames at 44100 Hz, left `1, 2, 3` and right `4, 5, 6`. -/
def stereo_file : AudioData := ⟨44100, 2, [1, 4, 2, 5, 3, 6]⟩

/-! ## List lemmas for the loops -/

theorem foldl_set_length {α : Type} (g : Nat → Nat) (f : List α → Nat → α) (n : Nat)
    (d : List α) :
    ((List.range n).foldl (fun d i => d.set (g i) (f d i)) d).length = d.length := by
  induction n with
  | zero => simp
  | succ n ih => simp [List.range_succ, List.foldl_append, ih]

theorem getD_set {α : Type} (z : α) (l : List α) (i j : Nat) (a : α) :
    (l.set i a).getD j z = if i = j ∧ j < l.length then a else l.getD j z := by
  simp only [List.getD_eq_getElem?_getD, List.getElem?_set]
  by_cases h : i = j
  · subst h
    by_cases h2 : i < l.length
    · simp [h2]
    · simp [h2, List.getElem?_eq_none (Nat.le_of_not_lt h2)]
  · simp [h]

/-- A loop that rewrites the slots `off, off + 1, ..., off + n - 1` one by one, each from its own
previous value, rewrites exactly those slots. -/
theorem foldl_set_getD {α : Type} (z : α) (h : Nat → α → α) (off n : Nat) (d : List α)
    (j : Nat) :
    ((List.range n).foldl (fun d i => d.set (off + i) (h i (d.getD (off + i) z))) d).getD j z
      = if off ≤ j ∧ j < off + n ∧ j < d.length then h (j - off) (d.getD j z)
        else d.getD j z := by
  induction n generalizing j with
  | zero =>
    have e : ¬ (off ≤ j ∧ j < off + 0 ∧ j < d.length) := by omega
    simp only [List.range_zero, List.foldl_nil, e, if_false]
  | succ n ih =>
    rw [List.range_succ, List.foldl_append]
    simp only [List.foldl_cons, List.foldl_nil]
    rw [getD_set, foldl_set_length (fun i => off + i) (fun d i => h i (d.getD (off + i) z)),
      ih, ih]
    by_cases h1 : off + n = j
    · subst h1
      have e1 : ¬ (off ≤ off + n ∧ off + n < off + n ∧ off + n < d.length) := by omega
      rw [if_neg e1]
      by_cases h2 : off + n < d.length
      · have e2 : (off ≤ off + n ∧ off + n < off + (n + 1) ∧ off + n < d.length) := by omega
        rw [if_pos e2, if_pos ⟨rfl, h2⟩, Nat.add_sub_cancel_left]
      · have e2 : ¬ (off ≤ off + n ∧ off + n < off + (n + 1) ∧ off + n < d.length) := by omega
        rw [if_neg e2, if_neg (fun hh => h2 hh.2)]
    · have e : (off ≤ j ∧ j < off + (n + 1) ∧ j < d.length) ↔
          (off ≤ j ∧ j < off + n ∧ j < d.length) := by omega
      rw [if_neg (fun hh => h1 hh.1)]
      simp only [e]

theorem getD_of_length_le {α : Type} (z : α) (l : List α) (j : Nat) (h : l.length ≤ j) :
    l.getD j z = z := by
  simp [List.getD_eq_getElem?_getD, List.getElem?_eq_none h]

theorem ext_getD {α : Type} (z : α) (l₁ l₂ : List α) (hl : l₁.length = l₂.length)
    (h : ∀ j, j < l₁.length → l₁.getD j z = l₂.getD j z) : l₁ = l₂ := by
  apply List.ext_getElem hl
  intro j h1 h2
  have := h j h1
  rwa [List.getD_eq_getElem _ _ h1, List.getD_eq_getElem _ _ h2] at this

theorem reverse_getD {α : Type} (z : α) (l : List α) (i : Nat) (h : i < l.length) :
    l.reverse.getD i z = l.getD (l.length - 1 - i) z := by
  simp only [List.getD_eq_getElem?_getD, List.getElem?_reverse h]

/-! ## `copy_n` and `pad_signal` -/

theorem copy_n_length (src : List ℚ) (first count : Nat) (dst : List ℚ) (result : Nat) :
    (copy_n src first count dst result).length = dst.length :=
  foldl_set_length (fun i => result + i) (fun _ i => src.getD (first + i) 0) count dst

theorem copy_n_getD (src : List ℚ) (first count : Nat) (dst : List ℚ) (result j : Nat) :
    (copy_n src first count dst result).getD j 0 =
      if result ≤ j ∧ j < result + count ∧ j < dst.length then src.getD (first + (j - result)) 0
      else dst.getD j 0 :=
  foldl_set_getD 0 (fun i _ => src.getD (first + i) 0) result count dst j

theorem pad_signal_length (b : stft_buffers) :
    (pad_signal b).padded_waveform_mono_in.length = b.padded_waveform_mono_in.length := by
  simp only [pad_signal, copy_n_length]

/-- What `pad_signal` leaves in each slot of the padded buffer, in terms of the buffer it was
given: the left edge is the reversal of the slots `[P, 2P)`, the right edge the reversal of the
slots `[N, N + P)`, the centre is untouched. -/
theorem pad_signal_getD (b : stft_buffers) (N j : Nat)
    (hlen : b.padded_waveform_mono_in.length = N + 2 * b.pad)
    (hs : b.pad_start.length = b.pad) (he : b.pad_end.length = b.pad) :
    (pad_signal b).padded_waveform_mono_in.getD j 0 =
      if j < b.pad then b.padded_waveform_mono_in.getD (2 * b.pad - 1 - j) 0
      else if N + b.pad ≤ j ∧ j < N + 2 * b.pad then
        b.padded_waveform_mono_in.getD (N + b.pad - 1 - (j - (N + b.pad))) 0
      else b.padded_waveform_mono_in.getD j 0 := by
  simp only [pad_signal]
  rw [copy_n_getD, copy_n_length, copy_n_getD, hlen]
  by_cases h1 : j < b.pad
  · have e1 : ¬ (N + 2 * b.pad - b.pad ≤ j ∧ j < N + 2 * b.pad - b.pad + b.pad ∧
        j < N + 2 * b.pad) := by omega
    have e2 : (0 ≤ j ∧ j < 0 + b.pad ∧ j < N + 2 * b.pad) := by omega
    rw [if_neg e1, if_pos e2, if_pos h1, Nat.zero_add, Nat.sub_zero,
      reverse_getD 0 _ _ (by rw [copy_n_length, hs]; exact h1), copy_n_length, hs, copy_n_getD,
      if_pos (by omega)]
    congr 1
    omega
  · rw [if_neg h1]
    by_cases h2 : N + b.pad ≤ j ∧ j < N + 2 * b.pad
    · have e1 : (N + 2 * b.pad - b.pad ≤ j ∧ j < N + 2 * b.pad - b.pad + b.pad ∧
          j < N + 2 * b.pad) := by omega
      rw [if_pos e1, if_pos h2, Nat.zero_add,
        reverse_getD 0 _ _ (by rw [copy_n_length, he]; omega), copy_n_length, he, copy_n_getD,
        if_pos (by omega)]
      congr 1
      omega
    · have e1 : ¬ (N + 2 * b.pad - b.pad ≤ j ∧ j < N + 2 * b.pad - b.pad + b.pad ∧
          j < N + 2 * b.pad) := by omega
      have e2 : ¬ (0 ≤ j ∧ j < 0 + b.pad ∧ j < N + 2 * b.pad) := by omega
      rw [if_neg e1, if_neg e2, if_neg h2]

/-- C5. `pad_signal` mirrors the interior: on a buffer of `N + 2P` samples (scratch vectors of
`P` samples; in particular whenever `N ≥ P`), the first `P` slots become the reversal of the slots `[P, 2P)`, the
last `P` slots become the reversal of the slots `[N, N + P)`, exactly, and the `N` centre slots
`[P, P + N)` are unchanged. -/
theorem pad_signal_mirrors_interior (b : stft_buffers) (N : Nat)
    (hlen : b.padded_waveform_mono_in.length = N + 2 * b.pad)
    (hs : b.pad_start.length = b.pad) (he : b.pad_end.length = b.pad) :
    (pad_signal b).padded_waveform_mono_in.length = N + 2 * b.pad ∧
    (∀ i, i < b.pad → (pad_signal b).padded_waveform_mono_in.getD i 0 =
      b.padded_waveform_mono_in.getD (2 * b.pad - 1 - i) 0) ∧
    (∀ i, i < b.pad → (pad_signal b).padded_waveform_mono_in.getD (N + b.pad + i) 0 =
      b.padded_waveform_mono_in.getD (N + b.pad - 1 - i) 0) ∧
    (∀ j, b.pad ≤ j → j < b.pad + N → (pad_signal b).padded_waveform_mono_in.getD j 0 =
      b.padded_waveform_mono_in.getD j 0) := by
  refine ⟨by rw [pad_signal_length, hlen], ?_, ?_, ?_⟩
  · intro i hi
    rw [pad_signal_getD b N i hlen hs he, if_pos hi]
  · intro i hi
    rw [pad_signal_getD b N _ hlen hs he, if_neg (by omega), if_pos (by omega)]
    congr 1
    omega
  · intro j h1 h2
    rw [pad_signal_getD b N j hlen hs he, if_neg (by omega), if_neg (by omega)]

/-- C5 on the ramp `1, 2, 3, 4` at offset 2 of a buffer of 8 slots. -/
theorem pad_signal_mirrors_interior_witness :
    (pad_signal ramp_buffers).padded_waveform_mono_in.length = 4 + 2 * ramp_buffers.pad ∧
    (∀ i, i < ramp_buffers.pad → (pad_signal ramp_buffers).padded_waveform_mono_in.getD i 0 =
      ramp_buffers.padded_waveform_mono_in.getD (2 * ramp_buffers.pad - 1 - i) 0) ∧
    (∀ i, i < ramp_buffers.pad →
      (pad_signal ramp_buffers).padded_waveform_mono_in.getD (4 + ramp_buffers.pad + i) 0 =
      ramp_buffers.padded_waveform_mono_in.getD (4 + ramp_buffers.pad - 1 - i) 0) ∧
    (∀ j, ramp_buffers.pad ≤ j → j < ramp_buffers.pad + 4 →
      (pad_signal ramp_buffers).padded_waveform_mono_in.getD j 0 =
      ramp_buffers.padded_waveform_mono_in.getD j 0) :=
  pad_signal_mirrors_interior ramp_buffers 4 (by decide) (by decide) (by decide)

/-- C4. On the ramp `x = 1, 2, 3, 4` placed at offset `P = 2` of a buffer of 8 slots,
`pad_signal` leaves `2, 1, 1, 2, 3, 4, 4, 3`: the boundary samples `x[0]` and `x[N - 1]` are
repeated, whereas reflect padding (`padded[i] = x[P - i]`, `padded[P + N + j] = x[N - 2 - j]`)
gives `3, 2, 1, 2, 3, 4, 3, 2`. -/
theorem pad_signal_ramp_repeats_boundary :
    (pad_signal ramp_buffers).padded_waveform_mono_in = [2, 1, 1, 2, 3, 4, 4, 3] ∧
    (pad_signal ramp_buffers).padded_waveform_mono_in.getD 0 0 ≠
      (ramp_buffers.waveform.getD 0 []).getD (2 - 0) 0 ∧
    (pad_signal ramp_buffers).padded_waveform_mono_in.getD (2 + 4 + 0) 0 ≠
      (ramp_buffers.waveform.getD 0 []).getD (4 - 2 - 0) 0 := by
  decide

/-! ## The frame loop of `stft_inner` -/

theorem stft_frames_succ (k : Consts) (cfg : FFT) (b : stft_buffers) (start frame_idx m : Nat) :
    stft_frames k cfg b start frame_idx (m + 1) =
      stft_frames k cfg (stft_frame k cfg b start frame_idx) (start + k.FFT_HOP_SIZE)
        (frame_idx + 1) m := by
  unfold stft_frames
  rw [List.range_succ_eq_map, List.foldl_cons, List.foldl_map]
  simp only [Nat.zero_mul, Nat.add_zero, Nat.succ_eq_add_one]
  congr 1
  funext b i
  congr 1
  · rw [Nat.add_mul, Nat.one_mul]; omega
  · omega

/-- The frame loop of `stft_inner` returns after exactly `m` iterations when the `m` frame
starts `start + i * hop` are within the bound, the next one is not, and the fuel is at least
`m`. -/
theorem stft_loop_eq (k : Consts) (cfg : FFT) (bound : Nat) (m : Nat) :
    ∀ (fuel start frame_idx : Nat) (b : stft_buffers), m ≤ fuel →
      (∀ i, i < m → start + i * k.FFT_HOP_SIZE ≤ bound) →
      bound < start + m * k.FFT_HOP_SIZE →
      stft_loop k cfg bound fuel start frame_idx b =
        some (stft_frames k cfg b start frame_idx m, frame_idx + m) := by
  induction m with
  | zero =>
    intro fuel start frame_idx b _ _ h
    have h1 : ¬ start ≤ bound := by omega
    cases fuel <;> simp [stft_loop, h1, stft_frames]
  | succ m ih =>
    intro fuel start frame_idx b hf hin hout
    obtain ⟨fuel, rfl⟩ : ∃ f, fuel = f + 1 := ⟨fuel - 1, by omega⟩
    have h0 : start ≤ bound := by simpa using hin 0 (Nat.succ_pos m)
    rw [stft_loop, if_pos h0, ih fuel _ _ _ (by omega), stft_frames_succ]
    · congr 2
      omega
    · intro i hi
      have := hin (i + 1) (by omega)
      rw [Nat.add_mul, Nat.one_mul] at this
      omega
    · rw [Nat.add_mul, Nat.one_mul] at hout
      omega

theorem stft_bound_eq (k : Consts) (b : stft_buffers) (N : Nat)
    (hlen : b.padded_waveform_mono_in.length = N + k.FFT_WINDOW_SIZE)
    (hsz : N + k.FFT_WINDOW_SIZE < 2 ^ 64) : stft_bound k b = N := by
  unfold stft_bound
  rw [hlen]
  omega

theorem lt_succ_div_mul (N H : Nat) (hH : 0 < H) : N < (N / H + 1) * H := by
  rw [Nat.add_mul, Nat.one_mul]
  have h1 := Nat.div_add_mod N H
  have h2 := Nat.mod_lt N hH
  rw [Nat.mul_comm] at h1
  omega

theorem le_of_lt_succ_div (N H i : Nat) (hi : i < N / H + 1) : i * H ≤ N := by
  have h1 : i ≤ N / H := by omega
  exact (Nat.mul_le_mul_right H h1).trans (Nat.div_mul_le_self N H)

/-- For a hop `≥ 1` the fuel given to the frame loop of `stft_inner` suffices on every
workspace: the loop terminates after `bound / hop + 1` frames. -/
theorem stft_inner_run_total (k : Consts) (cfg : FFT) (b : stft_buffers)
    (hH : 0 < k.FFT_HOP_SIZE) :
    stft_inner_run k cfg b =
      some (stft_frames k cfg b 0 0 (stft_bound k b / k.FFT_HOP_SIZE + 1),
        stft_bound k b / k.FFT_HOP_SIZE + 1) := by
  unfold stft_inner_run
  have := stft_loop_eq k cfg (stft_bound k b) (stft_bound k b / k.FFT_HOP_SIZE + 1)
    (stft_bound k b + 1) 0 0 b
    (by have := Nat.div_le_self (stft_bound k b) k.FFT_HOP_SIZE; omega)
    (fun i hi => by rw [Nat.zero_add]; exact le_of_lt_succ_div _ _ i hi)
    (by rw [Nat.zero_add]; exact lt_succ_div_mul _ _ hH)
  rw [this, Nat.zero_add]

/-- On a padded buffer of `N + W` samples `stft_inner` terminates after `N / hop + 1` frames. -/
theorem stft_inner_run_eq (k : Consts) (cfg : FFT) (b : stft_buffers) (N : Nat)
    (hlen : b.padded_waveform_mono_in.length = N + k.FFT_WINDOW_SIZE)
    (hsz : N + k.FFT_WINDOW_SIZE < 2 ^ 64) (hH : 0 < k.FFT_HOP_SIZE) :
    stft_inner_run k cfg b =
      some (stft_frames k cfg b 0 0 (N / k.FFT_HOP_SIZE + 1), N / k.FFT_HOP_SIZE + 1) := by
  rw [stft_inner_run_total k cfg b hH, stft_bound_eq k b N hlen hsz]

/-- C6. Frame count of the forward loop: for an even window `W = 2P`, a hop `H ≥ 1` and a
padded buffer of `N + 2P` samples, the loop of `stft_inner` terminates with
`frame_idx = (N + 2P - W) / H + 1`; the last frame started satisfies `start + W ≤` padded
length and the next start does not. -/
theorem stft_inner_frame_count (k : Consts) (cfg : FFT) (b : stft_buffers) (N P : Nat)
    (hW : k.FFT_WINDOW_SIZE = 2 * P)
    (hlen : b.padded_waveform_mono_in.length = N + 2 * P)
    (hsz : N + 2 * P < 2 ^ 64) (hH : 1 ≤ k.FFT_HOP_SIZE) :
    stft_inner_frames k cfg b =
      some ((N + 2 * P - k.FFT_WINDOW_SIZE) / k.FFT_HOP_SIZE + 1) ∧
    (N + 2 * P - k.FFT_WINDOW_SIZE) / k.FFT_HOP_SIZE * k.FFT_HOP_SIZE + k.FFT_WINDOW_SIZE
      ≤ b.padded_waveform_mono_in.length ∧
    b.padded_waveform_mono_in.length <
      ((N + 2 * P - k.FFT_WINDOW_SIZE) / k.FFT_HOP_SIZE + 1) * k.FFT_HOP_SIZE
        + k.FFT_WINDOW_SIZE := by
  have e : N + 2 * P - k.FFT_WINDOW_SIZE = N := by omega
  rw [e, hlen, ← hW]
  refine ⟨?_, ?_, ?_⟩
  · rw [stft_inner_frames, stft_inner_run_eq k cfg b N (by rw [hlen, hW]) (by omega) hH]
    rfl
  · have := Nat.div_mul_le_self N k.FFT_HOP_SIZE
    omega
  · have := lt_succ_div_mul N k.FFT_HOP_SIZE hH
    omega

/-- C6 for window 4, hop 2 and 6 samples: 4 frames. -/
theorem stft_inner_frame_count_witness :
    stft_inner_frames consts4 fft4 scenario_buffers =
      some ((6 + 2 * 2 - consts4.FFT_WINDOW_SIZE) / consts4.FFT_HOP_SIZE + 1) ∧
    (6 + 2 * 2 - consts4.FFT_WINDOW_SIZE) / consts4.FFT_HOP_SIZE * consts4.FFT_HOP_SIZE
      + consts4.FFT_WINDOW_SIZE ≤ scenario_buffers.padded_waveform_mono_in.length ∧
    scenario_buffers.padded_waveform_mono_in.length <
      ((6 + 2 * 2 - consts4.FFT_WINDOW_SIZE) / consts4.FFT_HOP_SIZE + 1) * consts4.FFT_HOP_SIZE
        + consts4.FFT_WINDOW_SIZE :=
  stft_inner_frame_count consts4 fft4 scenario_buffers 6 2 (by decide) (by decide) (by decide)
    (by decide)

/-- C7, as stated, fails: for `W = 4`, `H = 2`, `N = 6` the forward loop runs 4 frames, not
`(N + W - H) / H + 1 = 5`. -/
theorem frame_count_not_shape_formula :
    stft_inner_frames consts4 fft4 (pad_signal (load_row scenario_buffers 0)) = some 4 ∧
    stft_inner_frames consts4 fft4 (pad_signal (load_row scenario_buffers 0)) ≠
      some ((6 + consts4.FFT_WINDOW_SIZE - consts4.FFT_HOP_SIZE) / consts4.FFT_HOP_SIZE + 1) := by
  decide

/-- C7, amended. For window size `W`, hop `H ≥ 1` and input length `N` (padded length `N + W`),
the forward transform produces `N / H + 1` frames. -/
theorem stft_frame_dimension (k : Consts) (cfg : FFT) (b : stft_buffers) (N : Nat)
    (hlen : b.padded_waveform_mono_in.length = N + k.FFT_WINDOW_SIZE)
    (hsz : N + k.FFT_WINDOW_SIZE < 2 ^ 64) (hH : 1 ≤ k.FFT_HOP_SIZE) :
    stft_inner_frames k cfg b = some (N / k.FFT_HOP_SIZE + 1) := by
  rw [stft_inner_frames, stft_inner_run_eq k cfg b N hlen hsz hH]
  rfl

/-- C7, amended, for window 4, hop 2 and 6 samples: `6 / 2 + 1` frames. -/
theorem stft_frame_dimension_witness :
    stft_inner_frames consts4 fft4 scenario_buffers = some (6 / consts4.FFT_HOP_SIZE + 1) :=
  stft_frame_dimension consts4 fft4 scenario_buffers 6 (by decide) (by decide) (by decide)

/-! ## The effect of `stft_inner` on the workspace -/

theorem foldl_set_getD_zero_off {α : Type} (z : α) (h : Nat → α → α) (n : Nat) (d : List α)
    (j : Nat) :
    ((List.range n).foldl (fun d i => d.set i (h i (d.getD i z))) d).getD j z
      = if j < n ∧ j < d.length then h j (d.getD j z) else d.getD j z := by
  have := foldl_set_getD z h 0 n d j
  simp only [Nat.zero_add, Nat.sub_zero, Nat.zero_le, true_and] at this
  exact this

theorem map_range_getD {α : Type} (z : α) (f : Nat → α) (n j : Nat) (h : j < n) :
    ((List.range n).map f).getD j z = f j := by
  simp [List.getD_eq_getElem?_getD, List.getElem?_map, List.getElem?_range h]

theorem Cplx.scale_zero (s : ℚ) : Cplx.scale s 0 = 0 := by
  show Cplx.mk (0 * s) (0 * s) = Cplx.mk 0 0
  simp

theorem scale_bins_length (n : Nat) (s : ℚ) (row : List Cplx) :
    (scale_bins n s row).length = row.length :=
  foldl_set_length (fun i => i) (fun (r : List Cplx) i => Cplx.scale s (r.getD i 0)) n row

theorem scale_bins_getD (n : Nat) (s : ℚ) (row : List Cplx) (i : Nat) :
    (scale_bins n s row).getD i 0 =
      if i < n then (row.getD i 0).scale s else row.getD i 0 := by
  unfold scale_bins
  rw [foldl_set_getD_zero_off 0 (fun _ z => Cplx.scale s z) n row i]
  by_cases h1 : i < n
  · by_cases h2 : i < row.length
    · rw [if_pos ⟨h1, h2⟩, if_pos h1]
    · rw [if_neg (fun hh => h2 hh.2), if_pos h1,
        getD_of_length_le 0 row i (Nat.le_of_not_lt h2), Cplx.scale_zero]
  · rw [if_neg (fun hh => h1 hh.1), if_neg h1]

theorem apply_window_eq (k : Consts) (b : stft_buffers) (start : Nat)
    (hw : b.windowed_waveform_mono.length = k.FFT_WINDOW_SIZE) :
    apply_window k b start =
      windowed_frame k b.padded_waveform_mono_in b.window start := by
  have hl : (apply_window k b start).length = k.FFT_WINDOW_SIZE := by
    unfold apply_window
    rw [foldl_set_length (fun i => i)
      (fun _ i => b.padded_waveform_mono_in.getD (start + i) 0 * b.window.getD i 0), hw]
  apply ext_getD 0
  · rw [hl, windowed_frame, List.length_map, List.length_range]
  · intro j hj
    rw [hl] at hj
    unfold apply_window windowed_frame
    rw [foldl_set_getD_zero_off 0
      (fun i _ => b.padded_waveform_mono_in.getD (start + i) 0 * b.window.getD i 0),
      if_pos ⟨hj, by rw [hw]; exact hj⟩, map_range_getD 0 _ _ _ hj]

theorem windowed_frame_length (k : Consts) (padded window : List ℚ) (start : Nat) :
    (windowed_frame k padded window start).length = k.FFT_WINDOW_SIZE := by
  rw [windowed_frame, List.length_map, List.length_range]

theorem set_set_getD {α : Type} (t : List (List α)) (i j : Nat) (r : List α)
    (f : List α → List α) :
    ((t.set i r).set i (f ((t.set i r).getD i []))).getD j [] =
      if i = j ∧ j < t.length then f r else t.getD j [] := by
  rw [getD_set, List.length_set]
  by_cases h : i = j ∧ j < t.length
  · rw [if_pos h, if_pos h, getD_set, if_pos ⟨rfl, by omega⟩]
  · rw [if_neg h, if_neg h, getD_set, if_neg h]

theorem stft_frames_step (k : Consts) (cfg : FFT) (b : stft_buffers) (start frame_idx m : Nat) :
    stft_frames k cfg b start frame_idx (m + 1) =
      stft_frame k cfg (stft_frames k cfg b start frame_idx m)
        (start + m * k.FFT_HOP_SIZE) (frame_idx + m) := by
  unfold stft_frames
  rw [List.range_succ, List.foldl_append]
  rfl

/-- After `m` iterations of the frame loop of `stft_inner` only the frame buffer and the frame
table have changed, and row `frame_idx + i` of the table is the row of frame `i`. -/
theorem stft_frames_inv (k : Consts) (cfg : FFT) (b : stft_buffers) (start frame_idx : Nat)
    (hw : b.windowed_waveform_mono.length = k.FFT_WINDOW_SIZE) (m : Nat) :
    ∃ w t, stft_frames k cfg b start frame_idx m =
        { b with windowed_waveform_mono := w, complex_spec_mono := t } ∧
      w.length = k.FFT_WINDOW_SIZE ∧ t.length = b.complex_spec_mono.length ∧
      ∀ j, t.getD j [] =
        if frame_idx ≤ j ∧ j < frame_idx + m ∧ j < b.complex_spec_mono.length then
          frame_row k cfg b.padded_waveform_mono_in b.window
            (start + (j - frame_idx) * k.FFT_HOP_SIZE)
        else b.complex_spec_mono.getD j [] := by
  induction m with
  | zero =>
    refine ⟨b.windowed_waveform_mono, b.complex_spec_mono, rfl, hw, rfl, ?_⟩
    intro j
    rw [if_neg (by omega)]
  | succ m ih =>
    obtain ⟨w, t, hst, hwl, htl, hrow⟩ := ih
    rw [stft_frames_step, hst]
    refine ⟨_, _, rfl, ?_, ?_, ?_⟩
    · show (apply_window k _ _).length = _
      rw [apply_window_eq k _ _ hwl, windowed_frame_length]
    · simp only [List.length_set, htl]
    · intro j
      show (List.set _ _ _).getD j [] = _
      rw [apply_window_eq k _ _ hwl, set_set_getD, htl, hrow]
      by_cases h1 : frame_idx + m = j
      · subst h1
        by_cases h2 : frame_idx + m < b.complex_spec_mono.length
        · rw [if_pos ⟨rfl, h2⟩, if_pos (by omega), Nat.add_sub_cancel_left]
          rfl
        · rw [if_neg (fun hh => h2 hh.2), if_neg (by omega), if_neg (by omega)]
      · rw [if_neg (fun hh => h1 hh.1)]
        have e : (frame_idx ≤ j ∧ j < frame_idx + (m + 1) ∧ j < b.complex_spec_mono.length) ↔
            (frame_idx ≤ j ∧ j < frame_idx + m ∧ j < b.complex_spec_mono.length) := by omega
        simp only [e]

/-! ## The effect of `stft` on the workspace -/

theorem tensor_fold_frames (s : Tensor) (ch i : Nat) (v : Nat → Cplx) (n : Nat)
    (c a f : Nat) :
    ((List.range n).foldl (fun s j => tensor_set s ch i j (v j)) s) c a f =
      if c = ch ∧ a = i ∧ f < n then v f else s c a f := by
  induction n with
  | zero => simp
  | succ n ih =>
    rw [List.range_succ, List.foldl_append]
    simp only [List.foldl_cons, List.foldl_nil, tensor_set]
    rw [ih]
    by_cases h1 : c = ch ∧ a = i ∧ f = n
    · rw [if_pos h1, if_pos ⟨h1.1, h1.2.1, by omega⟩, h1.2.2]
    · rw [if_neg h1]
      have e : (c = ch ∧ a = i ∧ f < n + 1) ↔ (c = ch ∧ a = i ∧ f < n) := by
        constructor
        · rintro ⟨h2, h3, h4⟩
          exact ⟨h2, h3, by
            rcases Nat.lt_succ_iff_lt_or_eq.mp h4 with h5 | h5
            · exact h5
            · exact absurd ⟨h2, h3, h5⟩ h1⟩
        · rintro ⟨h2, h3, h4⟩
          exact ⟨h2, h3, by omega⟩
      simp only [e]

theorem tensor_fold_bins (s : Tensor) (ch m : Nat) (v : Nat → Nat → Cplx) (n : Nat)
    (c a f : Nat) :
    ((List.range n).foldl
      (fun s i => (List.range m).foldl (fun s j => tensor_set s ch i j (v i j)) s) s) c a f =
      if c = ch ∧ a < n ∧ f < m then v a f else s c a f := by
  induction n with
  | zero => simp
  | succ n ih =>
    rw [List.range_succ, List.foldl_append]
    simp only [List.foldl_cons, List.foldl_nil]
    rw [tensor_fold_frames, ih]
    by_cases h1 : c = ch ∧ a = n ∧ f < m
    · rw [if_pos h1, if_pos ⟨h1.1, by omega, h1.2.2⟩, h1.2.1]
    · rw [if_neg h1]
      have e : (c = ch ∧ a < n + 1 ∧ f < m) ↔ (c = ch ∧ a < n ∧ f < m) := by
        constructor
        · rintro ⟨h2, h3, h4⟩
          exact ⟨h2, by
            rcases Nat.lt_succ_iff_lt_or_eq.mp h3 with h5 | h5
            · exact h5
            · exact absurd ⟨h2, h5, h4⟩ h1, h4⟩
        · rintro ⟨h2, h3, h4⟩
          exact ⟨h2, by omega, h4⟩
      simp only [e]

theorem store_spec_apply (b : stft_buffers) (ch c a f : Nat) :
    store_spec b ch c a f =
      if c = ch ∧ a < b.nb_bins ∧ f < b.nb_frames then
        (b.complex_spec_mono.getD f []).getD a 0
      else b.spec c a f :=
  tensor_fold_bins b.spec ch b.nb_frames
    (fun i j => (b.complex_spec_mono.getD j []).getD i 0) b.nb_bins c a f

theorem stft_unfold (k : Consts) (cfg : FFT) (b : stft_buffers) :
    stft k cfg b = (stft_channel k cfg b 0).bind (fun b1 => stft_channel k cfg b1 1) := by
  show List.foldlM _ b [0, 1] = _
  simp only [List.foldlM_cons, List.foldlM_nil]
  cases stft_channel k cfg b 0 <;> simp

/-- The body of the channel loop of `stft` returns; it changes the padded buffer, the pad
scratch, the frame buffer, the frame table and the slice `spec(channel, ., .)`. -/
theorem stft_channel_eq (k : Consts) (cfg : FFT) (b : stft_buffers) (N ch : Nat)
    (hlen : b.padded_waveform_mono_in.length = N + k.FFT_WINDOW_SIZE)
    (hw : b.windowed_waveform_mono.length = k.FFT_WINDOW_SIZE)
    (hsz : N + k.FFT_WINDOW_SIZE < 2 ^ 64) (hH : 0 < k.FFT_HOP_SIZE) :
    ∃ w t sp, stft_channel k cfg b ch =
        some { pad_signal (load_row b ch) with
          windowed_waveform_mono := w, complex_spec_mono := t, spec := sp } ∧
      w.length = k.FFT_WINDOW_SIZE ∧ t.length = b.complex_spec_mono.length ∧
      (∀ j, t.getD j [] =
        if j < N / k.FFT_HOP_SIZE + 1 ∧ j < b.complex_spec_mono.length then
          frame_row k cfg (pad_signal (load_row b ch)).padded_waveform_mono_in b.window
            (j * k.FFT_HOP_SIZE)
        else b.complex_spec_mono.getD j []) ∧
      (∀ c a f, sp c a f =
        if c = ch ∧ a < b.nb_bins ∧ f < b.nb_frames then (t.getD f []).getD a 0
        else b.spec c a f) := by
  have hlen2 : (pad_signal (load_row b ch)).padded_waveform_mono_in.length =
      N + k.FFT_WINDOW_SIZE := by
    rw [pad_signal_length]
    show (copy_n _ _ _ _ _).length = _
    rw [copy_n_length, hlen]
  obtain ⟨w, t, hst, hwl, htl, hrow⟩ :=
    stft_frames_inv k cfg (pad_signal (load_row b ch)) 0 0 hw (N / k.FFT_HOP_SIZE + 1)
  refine ⟨w, t, store_spec { pad_signal (load_row b ch) with
    windowed_waveform_mono := w, complex_spec_mono := t } ch, ?_, hwl, htl, ?_, ?_⟩
  · rw [stft_channel, stft_inner, stft_inner_run_eq k cfg _ N hlen2 hsz hH, hst]
    rfl
  · intro j
    rw [hrow j]
    simp only [Nat.zero_le, true_and, Nat.zero_add, Nat.sub_zero]
    rfl
  · intro c a f
    rw [store_spec_apply]
    rfl

theorem pad_signal_pad_start_length (b : stft_buffers) :
    (pad_signal b).pad_start.length = b.pad_start.length := by
  simp only [pad_signal, List.length_reverse, copy_n_length]

theorem pad_signal_pad_end_length (b : stft_buffers) :
    (pad_signal b).pad_end.length = b.pad_end.length := by
  simp only [pad_signal, List.length_reverse, copy_n_length]

theorem load_row_length (b : stft_buffers) (ch : Nat) :
    (load_row b ch).padded_waveform_mono_in.length = b.padded_waveform_mono_in.length := by
  show (copy_n _ _ _ _ _).length = _
  rw [copy_n_length]

/-- After the row copy the centre of the padded buffer is the row. -/
theorem load_row_getD (b : stft_buffers) (ch N j : Nat)
    (hlen : b.padded_waveform_mono_in.length = N + 2 * b.pad)
    (hrow : (b.waveform.getD ch []).length = N) :
    (load_row b ch).padded_waveform_mono_in.getD j 0 =
      if b.pad ≤ j ∧ j < b.pad + N then (b.waveform.getD ch []).getD (j - b.pad) 0
      else b.padded_waveform_mono_in.getD j 0 := by
  show (copy_n _ _ _ _ _).getD j 0 = _
  rw [copy_n_getD, hrow, hlen, Nat.zero_add]
  by_cases h : b.pad ≤ j ∧ j < b.pad + N
  · rw [if_pos h, if_pos ⟨h.1, h.2, by omega⟩]
  · rw [if_neg h, if_neg (fun hh => h ⟨hh.1, hh.2.1⟩)]

/-- The padded buffer `stft` builds for a channel does not depend on the contents of the pad
scratch. -/
theorem pad_load_congr (b b2 : stft_buffers) (N ch : Nat)
    (hlen : b.padded_waveform_mono_in.length = N + 2 * b.pad)
    (hs : b.pad_start.length = b.pad) (he : b.pad_end.length = b.pad)
    (hs2 : b2.pad_start.length = b.pad) (he2 : b2.pad_end.length = b.pad)
    (hp : b2.pad = b.pad) (hin : b2.padded_waveform_mono_in = b.padded_waveform_mono_in)
    (hwav : b2.waveform = b.waveform) :
    (pad_signal (load_row b2 ch)).padded_waveform_mono_in =
      (pad_signal (load_row b ch)).padded_waveform_mono_in := by
  have e : (load_row b2 ch).padded_waveform_mono_in =
      (load_row b ch).padded_waveform_mono_in := by
    show copy_n _ _ _ _ _ = copy_n _ _ _ _ _
    rw [hwav, hin, hp]
  have hl : (load_row b ch).padded_waveform_mono_in.length = N + 2 * (load_row b ch).pad := by
    rw [load_row_length, hlen]; rfl
  have hl2 : (load_row b2 ch).padded_waveform_mono_in.length =
      N + 2 * (load_row b2 ch).pad := by
    rw [e, hl]
    show _ = N + 2 * b2.pad
    rw [hp]; rfl
  apply ext_getD 0
  · rw [pad_signal_length, pad_signal_length, e]
  · intro j _
    rw [pad_signal_getD (load_row b2 ch) N j hl2 (hs2.trans hp.symm) (he2.trans hp.symm),
      pad_signal_getD (load_row b ch) N j hl hs he, e]
    show (if j < b2.pad then _ else if N + b2.pad ≤ j ∧ j < N + 2 * b2.pad then _ else _) =
      (if j < b.pad then _ else if N + b.pad ≤ j ∧ j < N + 2 * b.pad then _ else _)
    show (if j < b2.pad then
        (load_row b ch).padded_waveform_mono_in.getD (2 * b2.pad - 1 - j) 0
      else if N + b2.pad ≤ j ∧ j < N + 2 * b2.pad then
        (load_row b ch).padded_waveform_mono_in.getD (N + b2.pad - 1 - (j - (N + b2.pad))) 0
      else (load_row b ch).padded_waveform_mono_in.getD j 0) = _
    rw [hp]
    rfl

/-- The centre of the padded buffer of a channel is the row of the channel. -/
theorem pad_load_centre (b : stft_buffers) (N ch n : Nat)
    (hlen : b.padded_waveform_mono_in.length = N + 2 * b.pad)
    (hs : b.pad_start.length = b.pad) (he : b.pad_end.length = b.pad)
    (hrow : (b.waveform.getD ch []).length = N) (hn : n < N) :
    (pad_signal (load_row b ch)).padded_waveform_mono_in.getD (n + b.pad) 0 =
      (b.waveform.getD ch []).getD n 0 := by
  have hl : (load_row b ch).padded_waveform_mono_in.length = N + 2 * (load_row b ch).pad := by
    rw [load_row_length, hlen]; rfl
  rw [pad_signal_getD (load_row b ch) N _ hl hs he]
  show (if n + b.pad < b.pad then _ else if N + b.pad ≤ n + b.pad ∧ _ then _ else _) = _
  rw [if_neg (by omega), if_neg (by omega), load_row_getD b ch N _ hlen hrow,
    if_pos (by omega), Nat.add_sub_cancel]

/-- For `N ≥ P` the padded buffer of a channel is determined by the row of the channel. -/
theorem pad_load_eq_mirror_pad (b : stft_buffers) (N ch : Nat)
    (hlen : b.padded_waveform_mono_in.length = N + 2 * b.pad)
    (hs : b.pad_start.length = b.pad) (he : b.pad_end.length = b.pad)
    (hrow : (b.waveform.getD ch []).length = N) (hNP : b.pad ≤ N) :
    (pad_signal (load_row b ch)).padded_waveform_mono_in =
      mirror_pad b.pad (b.waveform.getD ch []) := by
  have hl : (load_row b ch).padded_waveform_mono_in.length = N + 2 * (load_row b ch).pad := by
    rw [load_row_length, hlen]; rfl
  apply ext_getD 0
  · rw [pad_signal_length, load_row_length, hlen, mirror_pad, List.length_map,
      List.length_range, hrow]
  · intro j hj
    rw [pad_signal_length, load_row_length, hlen] at hj
    rw [pad_signal_getD (load_row b ch) N j hl hs he, mirror_pad,
      map_range_getD 0 _ _ _ (by rw [hrow]; exact hj), hrow]
    show (if j < b.pad then
        (load_row b ch).padded_waveform_mono_in.getD (2 * b.pad - 1 - j) 0
      else if N + b.pad ≤ j ∧ j < N + 2 * b.pad then
        (load_row b ch).padded_waveform_mono_in.getD (N + b.pad - 1 - (j - (N + b.pad))) 0
      else (load_row b ch).padded_waveform_mono_in.getD j 0) = _
    by_cases h1 : j < b.pad
    · rw [if_pos h1, if_pos h1, load_row_getD b ch N _ hlen hrow, if_pos (by omega)]
      congr 1
      omega
    · rw [if_neg h1, if_neg h1]
      by_cases h2 : j < b.pad + N
      · rw [if_neg (by omega), if_pos h2, load_row_getD b ch N _ hlen hrow, if_pos (by omega)]
      · rw [if_pos (by omega), if_neg h2, load_row_getD b ch N _ hlen hrow, if_pos (by omega)]
        congr 1
        omega

/-- On a well-formed workspace `stft` returns, and leaves the workspace described by
`StftPost`. -/
theorem stft_post (k : Consts) (cfg : FFT) (b : stft_buffers) (N : Nat)
    (hwf : WellFormed k N b) (hsz : N + k.FFT_WINDOW_SIZE < 2 ^ 64)
    (hH : 0 < k.FFT_HOP_SIZE) :
    ∃ r, stft k cfg b = some r ∧ StftPost k cfg N b r := by
  obtain ⟨hW, hbins, hframes, hin, hout, hwin, htab, hps, hpe, hwav, hrows, hwl, hnl⟩ := hwf
  obtain ⟨w0, t0, sp0, h0, hw0, ht0, hrow0, hsp0⟩ :=
    stft_channel_eq k cfg b N 0 hin hwin hsz hH
  have hb1len : (pad_signal (load_row b 0)).padded_waveform_mono_in.length =
      N + k.FFT_WINDOW_SIZE := by
    rw [pad_signal_length, load_row_length, hin]
  obtain ⟨w1, t1, sp1, h1, hw1, ht1, hrow1, hsp1⟩ :=
    stft_channel_eq k cfg { pad_signal (load_row b 0) with
      windowed_waveform_mono := w0, complex_spec_mono := t0, spec := sp0 } N 1 hb1len hw0 hsz hH
  have hp1 : (pad_signal (load_row { pad_signal (load_row b 0) with
      windowed_waveform_mono := w0, complex_spec_mono := t0, spec := sp0 }
        1)).padded_waveform_mono_in = padded_channel b 1 := by
    show _ = (pad_signal (load_row
      { b with padded_waveform_mono_in := padded_channel b 0 } 1)).padded_waveform_mono_in
    refine pad_load_congr { b with padded_waveform_mono_in := padded_channel b 0 } _ N 1
      ?_ hps hpe ?_ ?_ rfl rfl rfl
    · show (pad_signal (load_row b 0)).padded_waveform_mono_in.length = _
      rw [hb1len, hW]
    · show (pad_signal (load_row b 0)).pad_start.length = _
      rw [pad_signal_pad_start_length]
      exact hps
    · show (pad_signal (load_row b 0)).pad_end.length = _
      rw [pad_signal_pad_end_length]
      exact hpe
  refine ⟨_, by rw [stft_unfold, h0]; exact h1, ?_⟩
  refine ⟨⟨hW, hbins, hframes, ?_, hout, hw1, ?_, ?_, ?_, hwav, hrows, hwl, hnl⟩,
    rfl, rfl, rfl, rfl, rfl, rfl, rfl, hp1, ?_, ?_⟩
  · show (pad_signal (load_row _ 1)).padded_waveform_mono_in.length = _
    rw [pad_signal_length, load_row_length]
    exact hb1len
  · exact ht1.trans (ht0.trans htab)
  · show (pad_signal (load_row _ 1)).pad_start.length = _
    rw [pad_signal_pad_start_length]
    show (pad_signal (load_row b 0)).pad_start.length = _
    rw [pad_signal_pad_start_length]
    exact hps
  · show (pad_signal (load_row _ 1)).pad_end.length = _
    rw [pad_signal_pad_end_length]
    show (pad_signal (load_row b 0)).pad_end.length = _
    rw [pad_signal_pad_end_length]
    exact hpe
  · intro j hj
    show t1.getD j [] = _
    rw [hrow1 j, if_pos ⟨by omega, by show j < t0.length; omega⟩, hp1]
    rfl
  · intro c a f
    show sp1 c a f = _
    rw [hsp1 c a f]
    show (if c = 1 ∧ a < b.nb_bins ∧ f < b.nb_frames then _ else sp0 c a f) = _
    by_cases hc1 : c = 1 ∧ a < b.nb_bins ∧ f < b.nb_frames
    · rw [if_pos hc1, if_pos ⟨by omega, hc1.2⟩, hrow1 f,
        if_pos ⟨by omega, by show f < t0.length; omega⟩, hp1, hc1.1]
      rfl
    · rw [if_neg hc1, hsp0 c a f]
      by_cases hc0 : c = 0 ∧ a < b.nb_bins ∧ f < b.nb_frames
      · rw [if_pos hc0, if_pos ⟨by omega, hc0.2⟩, hrow0 f, if_pos ⟨by omega, by omega⟩, hc0.1]
        rfl
      · rw [if_neg hc0, if_neg (by omega)]

theorem frame_row_getD (k : Consts) (cfg : FFT) (padded window : List ℚ) (start a : Nat)
    (ha : a < k.FFT_WINDOW_SIZE / 2 + 1) :
    (frame_row k cfg padded window start).getD a 0 =
      Cplx.scale (1 / k.sqrt_window)
        ((cfg.fwd (windowed_frame k padded window start)).getD a 0) := by
  rw [frame_row, scale_bins_getD, if_pos ha]

theorem row_length_of_wf (k : Consts) (N : Nat) (b : stft_buffers) (hwf : WellFormed k N b)
    (c : Nat) (hc : c < 2) : (b.waveform.getD c []).length = N := by
  obtain ⟨_, _, _, _, _, _, _, _, _, hwav, hrows, _, _⟩ := hwf
  have hc2 : c < b.waveform.length := by omega
  rw [List.getD_eq_getElem _ _ hc2]
  exact hrows _ (List.getElem_mem hc2)

/-- For `N ≥ P` the padded buffer of either channel is the mirror-padded row of the channel. -/
theorem padded_channel_eq_mirror_pad (k : Consts) (N : Nat) (b : stft_buffers)
    (hwf : WellFormed k N b) (hNP : b.pad ≤ N) (c : Nat) (hc : c < 2) :
    padded_channel b c = mirror_pad b.pad (b.waveform.getD c []) := by
  have hrow := row_length_of_wf k N b hwf
  obtain ⟨hW, _, _, hin, _, _, _, hps, hpe, _, _, _, _⟩ := hwf
  have h0 : padded_channel b 0 = mirror_pad b.pad (b.waveform.getD 0 []) :=
    pad_load_eq_mirror_pad b N 0 (by rw [hin, hW]) hps hpe (hrow 0 (by omega)) hNP
  obtain rfl | rfl : c = 0 ∨ c = 1 := by omega
  · exact h0
  · show (pad_signal (load_row
      { b with padded_waveform_mono_in := padded_channel b 0 } 1)).padded_waveform_mono_in = _
    refine pad_load_eq_mirror_pad { b with padded_waveform_mono_in := padded_channel b 0 } N 1
      ?_ hps hpe (hrow 1 (by omega)) hNP
    show (pad_signal (load_row b 0)).padded_waveform_mono_in.length = _
    rw [pad_signal_length, load_row_length, hin, hW]

/-- C9. Channel independence of the forward transform: two workspaces well-formed for the same
`N ≥ P` that have the same row 1 and the same window, and differ arbitrarily in row 0, the
padded buffer, the pad scratch, the frame buffer, the frame table and the spectrogram, get the
same slice `spec(1, ., .)` from `stft`. -/
theorem stft_channel_one_independent (k : Consts) (cfg : FFT) (b b2 : stft_buffers) (N : Nat)
    (hwf : WellFormed k N b) (hwf2 : WellFormed k N b2)
    (hsz : N + k.FFT_WINDOW_SIZE < 2 ^ 64) (hH : 0 < k.FFT_HOP_SIZE) (hNP : b.pad ≤ N)
    (hrow : b.waveform.getD 1 [] = b2.waveform.getD 1 []) (hwin : b.window = b2.window) :
    ∃ r r2, stft k cfg b = some r ∧ stft k cfg b2 = some r2 ∧
      ∀ bin, bin < b.nb_bins → ∀ f, f < b.nb_frames → r.spec 1 bin f = r2.spec 1 bin f := by
  obtain ⟨r, hr, -, -, -, -, -, -, -, -, -, -, hspec⟩ := stft_post k cfg b N hwf hsz hH
  obtain ⟨r2, hr2, -, -, -, -, -, -, -, -, -, -, hspec2⟩ := stft_post k cfg b2 N hwf2 hsz hH
  have hpad : b2.pad = b.pad := by
    have h1 := hwf.1
    have h2 := hwf2.1
    omega
  have hb : b2.nb_bins = b.nb_bins := hwf2.2.1.trans hwf.2.1.symm
  have hf : b2.nb_frames = b.nb_frames := hwf2.2.2.1.trans hwf.2.2.1.symm
  refine ⟨r, r2, hr, hr2, ?_⟩
  intro bin hbin f hfr
  rw [hspec 1 bin f, hspec2 1 bin f, hb, hf, if_pos ⟨by omega, hbin, hfr⟩,
    if_pos ⟨by omega, hbin, hfr⟩,
    padded_channel_eq_mirror_pad k N b hwf hNP 1 (by omega),
    padded_channel_eq_mirror_pad k N b2 hwf2 (by omega) 1 (by omega), hpad, hrow, hwin]

/-- C9 for two workspaces that share row 1 and the window only. -/
theorem stft_channel_one_independent_witness :
    ∃ r r2, stft consts4 fft4 scenario_buffers = some r ∧
      stft consts4 fft4 scenario_buffers_alt = some r2 ∧
      ∀ bin, bin < scenario_buffers.nb_bins → ∀ f, f < scenario_buffers.nb_frames →
        r.spec 1 bin f = r2.spec 1 bin f :=
  stft_channel_one_independent consts4 fft4 scenario_buffers scenario_buffers_alt 6
    (by decide) (by decide) (by decide) (by decide) (by decide) (by decide) rfl

/-! ## The frame loop of `istft_inner` -/

theorem istft_frames_succ (k : Consts) (cfg : FFT) (b : stft_buffers) (start m : Nat) :
    istft_frames k cfg b start (m + 1) =
      istft_frames k cfg (istft_frame k cfg b start) (start + k.FFT_HOP_SIZE) m := by
  unfold istft_frames
  rw [List.range_succ_eq_map, List.foldl_cons, List.foldl_map]
  simp only [Nat.zero_mul, Nat.add_zero, Nat.succ_eq_add_one]
  congr 1
  funext b i
  congr 1
  rw [Nat.add_mul, Nat.one_mul]; omega

theorem istft_frames_step (k : Consts) (cfg : FFT) (b : stft_buffers) (start m : Nat) :
    istft_frames k cfg b start (m + 1) =
      istft_frame k cfg (istft_frames k cfg b start m) (start + m * k.FFT_HOP_SIZE) := by
  unfold istft_frames
  rw [List.range_succ, List.foldl_append]
  rfl

/-- The frame loop of `istft_inner` returns after exactly `m` iterations when the `m` frame
starts `start + i * hop` are below the bound, the next one is not, and the fuel is at least
`m`. -/
theorem istft_loop_eq (k : Consts) (cfg : FFT) (bound : Nat) (m : Nat) :
    ∀ (fuel start : Nat) (b : stft_buffers), m ≤ fuel →
      (∀ i, i < m → start + i * k.FFT_HOP_SIZE < bound) →
      bound ≤ start + m * k.FFT_HOP_SIZE →
      istft_loop k cfg bound fuel start b = some (istft_frames k cfg b start m) := by
  induction m with
  | zero =>
    intro fuel start b _ _ h
    have h1 : ¬ start < bound := by omega
    cases fuel <;> simp [istft_loop, h1, istft_frames]
  | succ m ih =>
    intro fuel start b hf hin hout
    obtain ⟨fuel, rfl⟩ : ∃ f, fuel = f + 1 := ⟨fuel - 1, by omega⟩
    have h0 : start < bound := by simpa using hin 0 (Nat.succ_pos m)
    rw [istft_loop, if_pos h0, ih fuel _ _ (by omega), istft_frames_succ]
    · intro i hi
      have := hin (i + 1) (by omega)
      rw [Nat.add_mul, Nat.one_mul] at this
      omega
    · rw [Nat.add_mul, Nat.one_mul] at hout
      omega

/-- For a hop `≥ 1` the function `istft_inner` terminates after `nb_frames` frames. -/
theorem istft_inner_eq (k : Consts) (cfg : FFT) (b : stft_buffers) (hH : 0 < k.FFT_HOP_SIZE) :
    istft_inner k cfg b = some (istft_frames k cfg
      { b with padded_waveform_mono_out := List.replicate b.padded_waveform_mono_out.length 0 }
      0 b.nb_frames) := by
  unfold istft_inner
  refine istft_loop_eq k cfg _ b.nb_frames _ 0 _ (Nat.le_mul_of_pos_right _ hH) ?_ ?_
  · intro i hi
    rw [Nat.zero_add]
    exact Nat.mul_lt_mul_of_pos_right hi hH
  · rw [Nat.zero_add]

theorem scale_bins_nil (n : Nat) (s : ℚ) : scale_bins n s [] = [] := by
  have := scale_bins_length n s []
  exact List.length_eq_zero.mp this

theorem overlap_add_length (k : Consts) (b : stft_buffers) (start : Nat) :
    (overlap_add k b start).length = b.padded_waveform_mono_out.length := by
  unfold overlap_add
  exact foldl_set_length (fun i => start + i) _ _ _

theorem overlap_add_getD (k : Consts) (b : stft_buffers) (start p : Nat) :
    (overlap_add k b start).getD p 0 =
      if start ≤ p ∧ p < start + k.FFT_WINDOW_SIZE ∧ p < b.padded_waveform_mono_out.length then
        b.padded_waveform_mono_out.getD p 0 +
          b.windowed_waveform_mono.getD (p - start) 0 * b.window.getD (p - start) 0 * 1 /
            (k.FFT_WINDOW_SIZE : ℚ) / (b.normalized_window.getD p 0 + 1 / 100000000)
      else b.padded_waveform_mono_out.getD p 0 := by
  unfold overlap_add
  rw [foldl_set_getD 0 (fun i old => old +
    b.windowed_waveform_mono.getD i 0 * b.window.getD i 0 * 1 / (k.FFT_WINDOW_SIZE : ℚ) /
      (b.normalized_window.getD (start + i) 0 + 1 / 100000000))]
  by_cases h : start ≤ p ∧ p < start + k.FFT_WINDOW_SIZE ∧
      p < b.padded_waveform_mono_out.length
  · rw [if_pos h, if_pos h]
    have e : start + (p - start) = p := by omega
    simp only [e]
  · rw [if_neg h, if_neg h]

/-- After `m` iterations of the frame loop of `istft_inner` only the frame buffer, the frame
table and the output buffer have changed: the rows `< m` of the table are scaled by `sqrt(W)`
and the output buffer has received the overlap-add terms of the frames `< m`. -/
theorem istft_frames_inv (k : Consts) (cfg : FFT) (b : stft_buffers)
    (hH : 0 < k.FFT_HOP_SIZE) (m : Nat) :
    ∃ w t o, istft_frames k cfg b 0 m =
        { b with windowed_waveform_mono := w, complex_spec_mono := t,
                 padded_waveform_mono_out := o } ∧
      t.length = b.complex_spec_mono.length ∧
      o.length = b.padded_waveform_mono_out.length ∧
      (∀ j, t.getD j [] =
        if j < m ∧ j < b.complex_spec_mono.length then
          scale_bins (k.FFT_WINDOW_SIZE / 2 + 1) k.sqrt_window (b.complex_spec_mono.getD j [])
        else b.complex_spec_mono.getD j []) ∧
      (∀ p, o.getD p 0 = b.padded_waveform_mono_out.getD p 0 +
        ((List.range m).map (fun f =>
          if f * k.FFT_HOP_SIZE ≤ p ∧ p < f * k.FFT_HOP_SIZE + k.FFT_WINDOW_SIZE ∧
              p < b.padded_waveform_mono_out.length then
            ola_term k cfg
              (scale_bins (k.FFT_WINDOW_SIZE / 2 + 1) k.sqrt_window
                (b.complex_spec_mono.getD f []))
              b.window b.normalized_window (f * k.FFT_HOP_SIZE) p
          else 0)).sum) := by
  induction m with
  | zero =>
    refine ⟨b.windowed_waveform_mono, b.complex_spec_mono, b.padded_waveform_mono_out,
      rfl, rfl, rfl, ?_, ?_⟩
    · intro j
      rw [if_neg (by omega)]
    · intro p
      simp
  | succ m ih =>
    obtain ⟨w, t, o, hst, htl, hol, hrow, hout⟩ := ih
    have hidx : (0 + m * k.FFT_HOP_SIZE) / k.FFT_HOP_SIZE = m := by
      rw [Nat.zero_add, Nat.mul_div_cancel _ hH]
    have htm : t.getD m [] = b.complex_spec_mono.getD m [] := by
      rw [hrow m]
      exact if_neg (by omega)
    have hrowm : (t.set m (scale_bins (k.FFT_WINDOW_SIZE / 2 + 1) k.sqrt_window
        (t.getD m []))).getD m [] =
        scale_bins (k.FFT_WINDOW_SIZE / 2 + 1) k.sqrt_window
          (b.complex_spec_mono.getD m []) := by
      rw [getD_set, htm]
      by_cases h : m < t.length
      · rw [if_pos ⟨rfl, h⟩]
      · rw [if_neg (fun hh => h hh.2),
          getD_of_length_le [] b.complex_spec_mono m (by omega), scale_bins_nil]
    rw [istft_frames_step, hst]
    refine ⟨_, _, _, rfl, ?_, ?_, ?_, ?_⟩
    · show (List.set t _ _).length = _
      rw [List.length_set, htl]
    · show (overlap_add k _ _).length = _
      rw [overlap_add_length]
      exact hol
    · intro j
      show (List.set t ((0 + m * k.FFT_HOP_SIZE) / k.FFT_HOP_SIZE) _).getD j [] = _
      rw [hidx, getD_set, htl, htm]
      by_cases h1 : m = j
      · subst h1
        by_cases h2 : m < b.complex_spec_mono.length
        · rw [if_pos ⟨rfl, h2⟩, if_pos ⟨by omega, h2⟩]
        · rw [if_neg (fun hh => h2 hh.2), if_neg (fun hh => h2 hh.2), htm]
      · rw [if_neg (fun hh => h1 hh.1), hrow j]
        have e : (j < m + 1 ∧ j < b.complex_spec_mono.length) ↔
            (j < m ∧ j < b.complex_spec_mono.length) := by omega
        simp only [e]
    · intro p
      show (overlap_add k _ _).getD p 0 = _
      rw [overlap_add_getD]
      show (if 0 + m * k.FFT_HOP_SIZE ≤ p ∧
          p < 0 + m * k.FFT_HOP_SIZE + k.FFT_WINDOW_SIZE ∧ p < o.length then
          o.getD p 0 + (cfg.inv ((t.set ((0 + m * k.FFT_HOP_SIZE) / k.FFT_HOP_SIZE)
            (scale_bins (k.FFT_WINDOW_SIZE / 2 + 1) k.sqrt_window
              (t.getD ((0 + m * k.FFT_HOP_SIZE) / k.FFT_HOP_SIZE) []))).getD
                ((0 + m * k.FFT_HOP_SIZE) / k.FFT_HOP_SIZE) [])).getD
                  (p - (0 + m * k.FFT_HOP_SIZE)) 0 *
            b.window.getD (p - (0 + m * k.FFT_HOP_SIZE)) 0 * 1 / (k.FFT_WINDOW_SIZE : ℚ) /
              (b.normalized_window.getD p 0 + 1 / 100000000)
        else o.getD p 0) = _
      rw [hidx, hrowm, hout p, hol, Nat.zero_add]
      simp only [List.range_succ, List.map_append, List.sum_append, List.map_cons, List.map_nil,
        List.sum_cons, List.sum_nil, add_zero]
      by_cases h : m * k.FFT_HOP_SIZE ≤ p ∧ p < m * k.FFT_HOP_SIZE + k.FFT_WINDOW_SIZE ∧
          p < b.padded_waveform_mono_out.length
      · rw [if_pos h, if_pos h, ola_term, add_assoc]
      · rw [if_neg h, if_neg h, add_zero]

/-! ## The effect of `istft` on the workspace -/

theorem take_getD {α : Type} (z : α) (l : List α) (n i : Nat) (h : i < n) :
    (l.take n).getD i z = l.getD i z := by
  simp only [List.getD_eq_getElem?_getD, List.getElem?_take_of_lt h]

theorem drop_getD {α : Type} (z : α) (l : List α) (n i : Nat) :
    (l.drop n).getD i z = l.getD (n + i) z := by
  simp only [List.getD_eq_getElem?_getD, List.getElem?_drop]

theorem replicate_getD {α : Type} (z : α) (n i : Nat) : (List.replicate n z).getD i z = z := by
  simp only [List.getD_eq_getElem?_getD, List.getElem?_replicate]
  by_cases h : i < n <;> simp [h]

theorem take_eq_map_range {α : Type} (z : α) (l : List α) (n : Nat) (h : n ≤ l.length) :
    l.take n = (List.range n).map (fun i => l.getD i z) := by
  apply ext_getD z
  · rw [List.length_take, List.length_map, List.length_range, Nat.min_eq_left h]
  · intro i hi
    rw [List.length_take] at hi
    have hi2 : i < n := by omega
    rw [take_getD z l n i hi2, map_range_getD z _ _ _ hi2]

theorem load_fold_length (t : List (List Cplx)) (v : Nat → Nat → Cplx) (m n : Nat) :
    ((List.range n).foldl
      (fun t i => (List.range m).foldl (fun t j => t.set j ((t.getD j []).set i (v i j))) t)
      t).length = t.length := by
  induction n with
  | zero => simp
  | succ n ih =>
    rw [List.range_succ, List.foldl_append]
    simp only [List.foldl_cons, List.foldl_nil]
    rw [foldl_set_length (fun j => j) (fun (t : List (List Cplx)) j => (t.getD j []).set n (v n j)),
      ih]

theorem load_fold_getD (t : List (List Cplx)) (v : Nat → Nat → Cplx) (m n j : Nat) :
    ((List.range n).foldl
      (fun t i => (List.range m).foldl (fun t j => t.set j ((t.getD j []).set i (v i j))) t)
      t).getD j [] =
      if j < m ∧ j < t.length then
        (List.range n).foldl (fun r i => r.set i (v i j)) (t.getD j [])
      else t.getD j [] := by
  induction n with
  | zero => simp
  | succ n ih =>
    rw [List.range_succ, List.foldl_append]
    simp only [List.foldl_cons, List.foldl_nil]
    rw [foldl_set_getD_zero_off [] (fun j row => row.set n (v n j)), load_fold_length, ih]
    by_cases h : j < m ∧ j < t.length
    · rw [if_pos h, if_pos h, if_pos h, List.foldl_append]
      rfl
    · rw [if_neg h, if_neg h, if_neg h]

theorem load_spec_length (b : stft_buffers) (ch : Nat) :
    (load_spec b ch).length = b.complex_spec_mono.length :=
  load_fold_length b.complex_spec_mono (fun i j => b.spec ch i j) b.nb_frames b.nb_bins

theorem load_spec_getD (b : stft_buffers) (ch j : Nat) :
    (load_spec b ch).getD j [] =
      if j < b.nb_frames ∧ j < b.complex_spec_mono.length then
        (List.range b.nb_bins).foldl (fun r i => r.set i (b.spec ch i j))
          (b.complex_spec_mono.getD j [])
      else b.complex_spec_mono.getD j [] :=
  load_fold_getD b.complex_spec_mono (fun i j => b.spec ch i j) b.nb_frames b.nb_bins j

theorem load_spec_row_length (b : stft_buffers) (ch j : Nat) :
    ((load_spec b ch).getD j []).length = (b.complex_spec_mono.getD j []).length := by
  rw [load_spec_getD]
  by_cases h : j < b.nb_frames ∧ j < b.complex_spec_mono.length
  · rw [if_pos h, foldl_set_length (fun i => i) (fun _ i => b.spec ch i j)]
  · rw [if_neg h]

/-- After the copy loops of `istft` the first `nb_bins` entries of row `j` of the frame table
are the bins of frame `j` of the channel. -/
theorem load_spec_take (b : stft_buffers) (ch j : Nat) (hj : j < b.nb_frames)
    (hj2 : j < b.complex_spec_mono.length)
    (hlen : b.nb_bins ≤ (b.complex_spec_mono.getD j []).length) :
    ((load_spec b ch).getD j []).take b.nb_bins = spec_frame b ch j := by
  rw [take_eq_map_range 0 _ _ (by rw [load_spec_row_length]; exact hlen), spec_frame]
  apply List.map_congr_left
  intro i hi
  rw [List.mem_range] at hi
  rw [load_spec_getD, if_pos ⟨hj, hj2⟩,
    foldl_set_getD_zero_off 0 (fun i _ => b.spec ch i j), if_pos ⟨hi, by omega⟩]

theorem scale_bins_take (n : Nat) (s : ℚ) (row : List Cplx) (h : n ≤ row.length) :
    (scale_bins n s row).take n = (row.take n).map (Cplx.scale s) := by
  rw [take_eq_map_range 0 _ _ (by rw [scale_bins_length]; exact h),
    take_eq_map_range 0 row n h, List.map_map]
  apply List.map_congr_left
  intro i hi
  rw [List.mem_range] at hi
  rw [scale_bins_getD, if_pos hi]
  rfl

theorem istft_unfold (k : Consts) (cfg : FFT) (b : stft_buffers) :
    istft k cfg b = (istft_channel k cfg b 0).bind (fun b1 => istft_channel k cfg b1 1) := by
  show List.foldlM _ b [0, 1] = _
  simp only [List.foldlM_cons, List.foldlM_nil]
  cases istft_channel k cfg b 0 <;> simp

theorem output_row_length (o : List ℚ) (N W P : Nat) (ho : o.length = N + W) (hW : W = 2 * P) :
    ((o.drop P).take (o.length - W)).length = N := by
  rw [List.length_take, List.length_drop, ho]
  have e1 : N + W - W = N := by omega
  rw [e1]
  exact Nat.min_eq_left (by omega)

/-- A sample of the row `istft` copies out of the output buffer. -/
theorem output_row_getD (k : Consts) (cfg : FFT) (b : stft_buffers) (ch : Nat) (o : List ℚ)
    (N n : Nat) (ho : o.length = N + k.FFT_WINDOW_SIZE) (hW : k.FFT_WINDOW_SIZE = 2 * b.pad)
    (hn : n < N)
    (hout : ∀ p, p < o.length → o.getD p 0 =
      ((List.range b.nb_frames).map (fun f =>
        if f * k.FFT_HOP_SIZE ≤ p ∧ p < f * k.FFT_HOP_SIZE + k.FFT_WINDOW_SIZE then
          ola_term k cfg ((spec_frame b ch f).map (Cplx.scale k.sqrt_window))
            b.window b.normalized_window (f * k.FFT_HOP_SIZE) p
        else 0)).sum) :
    ((o.drop b.pad).take (o.length - k.FFT_WINDOW_SIZE)).getD n 0 =
      overlap_add_sum k cfg b ch n := by
  rw [take_getD 0 _ _ _ (by omega), drop_getD, Nat.add_comm b.pad n, hout _ (by omega),
    overlap_add_sum]
  congr 1
  apply List.map_congr_left
  intro f _
  simp only [ola_term, mul_one]

theorem fft4_fwd_zero (i : Nat) :
    (fft4.fwd (List.replicate consts4.FFT_WINDOW_SIZE 0)).getD i 0 = 0 := by
  have e : fft4.fwd (List.replicate consts4.FFT_WINDOW_SIZE 0) = List.replicate 3 0 := by
    show [Cplx.mk (0 + 0 + 0 + 0) 0, ⟨0 - 0, 0 - 0⟩, ⟨0 - 0 + 0 - 0, 0⟩] =
      [Cplx.mk 0 0, ⟨0, 0⟩, ⟨0, 0⟩]
    norm_num
  rw [e, replicate_getD]

theorem fft4_inv_zero (i : Nat) :
    (fft4.inv (List.replicate (consts4.FFT_WINDOW_SIZE / 2 + 1) 0)).getD i 0 = 0 := by
  have e : fft4.inv (List.replicate (consts4.FFT_WINDOW_SIZE / 2 + 1) 0) =
      List.replicate 4 0 := by
    show [(0 : ℚ) + 2 * 0 + 0, 0 - 2 * 0 - 0, 0 - 2 * 0 + 0, 0 + 2 * 0 - 0] = [0, 0, 0, 0]
    norm_num
  rw [e, replicate_getD]

theorem getD_eq_zero_of_all_zero (row : List ℚ) (h : ∀ x ∈ row, x = 0) (i : Nat) :
    row.getD i 0 = 0 := by
  by_cases hi : i < row.length
  · rw [List.getD_eq_getElem _ _ hi]
    exact h _ (List.getElem_mem hi)
  · exact getD_of_length_le 0 row i (Nat.le_of_not_lt hi)

theorem mirror_pad_getD_zero (P : Nat) (row : List ℚ) (h : ∀ x ∈ row, x = 0) (j : Nat) :
    (mirror_pad P row).getD j 0 = 0 := by
  apply getD_eq_zero_of_all_zero
  intro x hx
  rw [mirror_pad, List.mem_map] at hx
  obtain ⟨i, -, rfl⟩ := hx
  split_ifs <;> exact getD_eq_zero_of_all_zero row h _

theorem windowed_frame_zero (k : Consts) (padded window : List ℚ) (start : Nat)
    (h : ∀ j, padded.getD j 0 = 0) :
    windowed_frame k padded window start = List.replicate k.FFT_WINDOW_SIZE 0 := by
  apply ext_getD 0
  · rw [windowed_frame_length, List.length_replicate]
  · intro i hi
    rw [windowed_frame_length] at hi
    rw [windowed_frame, map_range_getD 0 _ _ _ hi, h, zero_mul, replicate_getD]

theorem spec_frame_zero (b : stft_buffers) (c f : Nat)
    (h : ∀ bin, bin < b.nb_bins → b.spec c bin f = 0) (s : ℚ) :
    (spec_frame b c f).map (Cplx.scale s) = List.replicate b.nb_bins 0 := by
  apply ext_getD 0
  · rw [List.length_map, spec_frame, List.length_map, List.length_range, List.length_replicate]
  · intro i hi
    rw [List.length_map, spec_frame, List.length_map, List.length_range] at hi
    rw [spec_frame, List.map_map, map_range_getD 0 _ _ _ hi, replicate_getD]
    show Cplx.scale s (b.spec c i f) = 0
    rw [h i hi, Cplx.scale_zero]

/-! ## The round trip `stft` then `istft` -/

theorem window_sumsquare_getD (k : Consts) (nb_frames len : Nat) (window : List ℚ) (p : Nat)
    (hp : p < len) :
    (window_sumsquare k nb_frames len window).getD p 0 = window_sq_cover k nb_frames window p := by
  rw [window_sumsquare, map_range_getD 0 _ _ _ hp, window_sq_cover]

theorem window_sq_cover_nonneg (k : Consts) (nb_frames : Nat) (window : List ℚ) (p : Nat) :
    0 ≤ window_sq_cover k nb_frames window p := by
  apply List.sum_nonneg
  intro x hx
  rw [List.mem_map] at hx
  obtain ⟨f, -, rfl⟩ := hx
  split_ifs
  · exact sq_nonneg _
  · exact le_refl _

/-- The centre of the padded buffer of a channel is the row of the channel. -/
theorem padded_channel_centre (k : Consts) (N : Nat) (b : stft_buffers)
    (hwf : WellFormed k N b) (c : Nat) (hc : c < 2) (n : Nat) (hn : n < N) :
    (padded_channel b c).getD (n + b.pad) 0 = (b.waveform.getD c []).getD n 0 := by
  have hrow := row_length_of_wf k N b hwf
  obtain ⟨hW, _, _, hin, _, _, _, hps, hpe, _, _, _, _⟩ := hwf
  obtain rfl | rfl : c = 0 ∨ c = 1 := by omega
  · exact pad_load_centre b N 0 n (by rw [hin, hW]) hps hpe (hrow 0 (by omega)) hn
  · refine pad_load_centre { b with padded_waveform_mono_in := padded_channel b 0 } N 1 n
      ?_ hps hpe (hrow 1 (by omega)) hn
    show (pad_signal (load_row b 0)).padded_waveform_mono_in.length = _
    rw [pad_signal_length, load_row_length, hin, hW]

theorem row_fill_eq (a : Nat → ℚ) (N : Nat) (r : List ℚ) (hr : r.length = N) :
    (List.range N).foldl (fun r i => r.set i (a i)) r = (List.range N).map a := by
  apply ext_getD 0
  · rw [foldl_set_length (fun i => i) (fun _ i => a i), hr, List.length_map, List.length_range]
  · intro j hj
    rw [foldl_set_length (fun i => i) (fun _ i => a i), hr] at hj
    rw [foldl_set_getD_zero_off 0 (fun i _ => a i), if_pos ⟨hj, by omega⟩,
      map_range_getD 0 _ _ _ hj]

/-- A loop that fills column `i` of both rows of a two-row matrix fills the two rows. -/
theorem two_row_fold (a c : Nat → ℚ) (n : Nat) (x y : List ℚ) :
    (List.range n).foldl (fun ret i => matrix_set (matrix_set ret 0 i (a i)) 1 i (c i)) [x, y] =
      [(List.range n).foldl (fun r i => r.set i (a i)) x,
        (List.range n).foldl (fun r i => r.set i (c i)) y] := by
  induction n with
  | zero => rfl
  | succ n ih =>
    rw [List.range_succ, List.foldl_append, List.foldl_append, List.foldl_append, ih]
    rfl

theorem load_mono_eq (samples : List ℚ) (N : Nat) :
    load_mono samples N (List.replicate 2 (List.replicate N 0)) =
      [(List.range N).map (fun i => samples.getD i 0),
        (List.range N).map (fun i => samples.getD i 0)] := by
  show load_mono samples N [List.replicate N 0, List.replicate N 0] = _
  rw [load_mono, two_row_fold, row_fill_eq _ N _ (List.length_replicate _ _)]

theorem load_stereo_eq (samples : List ℚ) (N : Nat) :
    load_stereo samples N (List.replicate 2 (List.replicate N 0)) =
      [(List.range N).map (fun i => samples.getD (2 * i) 0),
        (List.range N).map (fun i => samples.getD (2 * i + 1) 0)] := by
  show load_stereo samples N [List.replicate N 0, List.replicate N 0] = _
  rw [load_stereo, two_row_fold, row_fill_eq _ N _ (List.length_replicate _ _),
    row_fill_eq _ N _ (List.length_replicate _ _)]

theorem map_getD_range_self (l : List ℚ) :
    (List.range l.length).map (fun i => l.getD i 0) = l := by
  apply ext_getD 0
  · rw [List.length_map, List.length_range]
  · intro j hj
    rw [List.length_map, List.length_range] at hj
    rw [map_range_getD 0 _ _ _ hj]

/-- What `load_audio` returns for a supported rate and one channel: both rows are the
samples. -/
theorem load_audio_mono (R : Int) (d : AudioData) (hr : d.sampleRate = R)
    (hc : d.channelCount = 1) : load_audio R d = Except.ok [d.samples, d.samples] := by
  have h1 : ¬ d.sampleRate ≠ R := fun h => h hr
  have h2 : ¬ d.channelCount % 2 ^ 64 = 0 := by rw [hc]; decide
  have h3 : ¬ (d.channelCount ≠ 2 ∧ d.channelCount ≠ 1) := fun h => h.2 hc
  have h4 : (d.channelCount % 2 ^ 64).toNat = 1 := by rw [hc]; decide
  rw [load_audio, if_neg h1, if_neg h2, if_neg h3]
  simp only [h4, Nat.div_one, if_pos hc]
  rw [load_mono_eq, map_getD_range_self]

/-- What `load_audio` returns for a supported rate and two channels: row 0 holds the samples of
even index, row 1 those of odd index. -/
theorem load_audio_stereo (R : Int) (d : AudioData) (hr : d.sampleRate = R)
    (hc : d.channelCount = 2) :
    load_audio R d = Except.ok
      [(List.range (d.samples.length / 2)).map (fun i => d.samples.getD (2 * i) 0),
        (List.range (d.samples.length / 2)).map (fun i => d.samples.getD (2 * i + 1) 0)] := by
  have h1 : ¬ d.sampleRate ≠ R := fun h => h hr
  have h2 : ¬ d.channelCount % 2 ^ 64 = 0 := by rw [hc]; decide
  have h3 : ¬ (d.channelCount ≠ 2 ∧ d.channelCount ≠ 1) := fun h => h.1 hc
  have h4 : (d.channelCount % 2 ^ 64).toNat = 2 := by rw [hc]; decide
  have h5 : ¬ d.channelCount = 1 := by rw [hc]; decide
  rw [load_audio, if_neg h1, if_neg h2, if_neg h3]
  simp only [h4, if_neg h5]
  rw [load_stereo_eq]

/-- C11. `load_audio` ends without a matrix exactly when the decoded sample rate differs from
`SUPPORTED_SAMPLE_RATE` or the decoded channel count is neither 1 nor 2; in every other case it
returns a matrix of exactly 2 rows and `samples.size() / channelCount` columns. -/
theorem load_audio_fails_iff (R : Int) (d : AudioData) :
    ((∃ e, load_audio R d = Except.error e) ↔
      (d.sampleRate ≠ R ∨ (d.channelCount ≠ 1 ∧ d.channelCount ≠ 2))) ∧
    (¬ (d.sampleRate ≠ R ∨ (d.channelCount ≠ 1 ∧ d.channelCount ≠ 2)) →
      ∃ ret, load_audio R d = Except.ok ret ∧ ret.length = 2 ∧
        ∀ row ∈ ret, row.length = d.samples.length / d.channelCount.toNat) := by
  by_cases hr : d.sampleRate = R
  · by_cases h1 : d.channelCount = 1
    · have hcond : ¬ (d.sampleRate ≠ R ∨ (d.channelCount ≠ 1 ∧ d.channelCount ≠ 2)) := by
        rintro (h | h)
        · exact h hr
        · exact h.1 h1
      have hok := load_audio_mono R d hr h1
      refine ⟨⟨fun ⟨e, he⟩ => (by rw [hok] at he; cases he), fun h => absurd h hcond⟩,
        fun _ => ?_⟩
      refine ⟨_, hok, rfl, ?_⟩
      intro row hrow
      simp only [List.mem_cons, List.mem_singleton, List.not_mem_nil, or_false, or_self] at hrow
      rw [hrow, h1]
      show _ = d.samples.length / 1
      rw [Nat.div_one]
    · by_cases h2 : d.channelCount = 2
      · have hcond : ¬ (d.sampleRate ≠ R ∨ (d.channelCount ≠ 1 ∧ d.channelCount ≠ 2)) := by
          rintro (h | h)
          · exact h hr
          · exact h.2 h2
        have hok := load_audio_stereo R d hr h2
        refine ⟨⟨fun ⟨e, he⟩ => (by rw [hok] at he; cases he), fun h => absurd h hcond⟩,
          fun _ => ?_⟩
        refine ⟨_, hok, rfl, ?_⟩
        intro row hrow
        simp only [List.mem_cons, List.mem_singleton, List.not_mem_nil, or_false] at hrow
        have e : d.channelCount.toNat = 2 := by rw [h2]; rfl
        rcases hrow with rfl | rfl <;> rw [List.length_map, List.length_range, e]
      · have hcond : d.sampleRate ≠ R ∨ (d.channelCount ≠ 1 ∧ d.channelCount ≠ 2) :=
          Or.inr ⟨h1, h2⟩
        refine ⟨⟨fun _ => hcond, fun _ => ?_⟩, fun h => absurd hcond h⟩
        have hr1 : ¬ d.sampleRate ≠ R := fun h => h hr
        rw [load_audio, if_neg hr1]
        by_cases h0 : d.channelCount % 2 ^ 64 = 0
        · exact ⟨_, if_pos h0⟩
        · rw [if_neg h0, if_pos ⟨h2, h1⟩]
          exact ⟨_, rfl⟩
  · have hcond : d.sampleRate ≠ R ∨ (d.channelCount ≠ 1 ∧ d.channelCount ≠ 2) := Or.inl hr
    refine ⟨⟨fun _ => hcond, fun _ => ?_⟩, fun h => absurd hcond h⟩
    rw [load_audio, if_pos hr]
    exact ⟨_, rfl⟩
theorem interleave_length (w : List (List ℚ)) (cols : Nat) (s : List ℚ) :
    (interleave w cols s).length = s.length := by
  unfold interleave
  induction cols with
  | zero => rfl
  | succ n ih =>
    rw [List.range_succ, List.foldl_append]
    simp only [List.foldl_cons, List.foldl_nil, List.length_set]
    exact ih

theorem interleave_succ (w : List (List ℚ)) (n : Nat) (s : List ℚ) :
    interleave w (n + 1) s =
      ((interleave w n s).set (2 * n) ((w.getD 0 []).getD n 0)).set (2 * n + 1)
        ((w.getD 1 []).getD n 0) := by
  unfold interleave
  rw [List.range_succ, List.foldl_append]
  rfl

/-- After the interleaving loop the slots `2 * i` and `2 * i + 1`, `i < cols`, hold
`waveform(0, i)` and `waveform(1, i)`. -/
theorem interleave_getD (w : List (List ℚ)) (cols : Nat) (s : List ℚ) (j : Nat) :
    (interleave w cols s).getD j 0 =
      if j < 2 * cols ∧ j < s.length then
        (if j % 2 = 0 then (w.getD 0 []).getD (j / 2) 0 else (w.getD 1 []).getD (j / 2) 0)
      else s.getD j 0 := by
  induction cols with
  | zero =>
    have e : ¬ (j < 2 * 0 ∧ j < s.length) := by omega
    rw [if_neg e]
    rfl
  | succ n ih =>
    rw [interleave_succ, getD_set, List.length_set, interleave_length, getD_set,
      interleave_length, ih]
    by_cases h1 : 2 * n + 1 = j ∧ j < s.length
    · have e1 : j < 2 * (n + 1) ∧ j < s.length := by omega
      have e2 : ¬ j % 2 = 0 := by omega
      have e3 : j / 2 = n := by omega
      rw [if_pos h1, if_pos e1, if_neg e2, e3]
    · rw [if_neg h1]
      by_cases h2 : 2 * n = j ∧ j < s.length
      · have e1 : j < 2 * (n + 1) ∧ j < s.length := by omega
        have e2 : j % 2 = 0 := by omega
        have e3 : j / 2 = n := by omega
        rw [if_pos h2, if_pos e1, if_pos e2, e3]
      · rw [if_neg h2]
        have e : (j < 2 * (n + 1) ∧ j < s.length) ↔ (j < 2 * n ∧ j < s.length) := by omega
        simp only [e]

theorem write_audio_file_getD (R : Int) (w : List (List ℚ)) (j : Nat)
    (hj : j < 2 * (w.getD 0 []).length) :
    (write_audio_file R w).samples.getD j 0 =
      if j % 2 = 0 then (w.getD 0 []).getD (j / 2) 0 else (w.getD 1 []).getD (j / 2) 0 := by
  show (interleave w _ (List.replicate _ 0)).getD j 0 = _
  rw [interleave_getD, List.length_replicate, if_pos ⟨hj, by omega⟩]

theorem write_audio_file_length (R : Int) (w : List (List ℚ)) :
    (write_audio_file R w).samples.length = 2 * (w.getD 0 []).length := by
  show (interleave w _ (List.replicate _ 0)).length = _
  rw [interleave_length, List.length_replicate, Nat.mul_comm]

/-- C14. Channel layout of `load_audio`.  For a mono input the returned matrix has
`ret(0, i) = ret(1, i) = samples[i]`; for a stereo input of `2N` interleaved samples
`ret(0, i) = samples[2i]` and `ret(1, i) = samples[2i + 1]`, `i < N`; and the interleaving of
`write_audio_file` is the inverse of the stereo de-interleaving, in both directions. -/
theorem load_audio_channel_layout (R : Int) (mono stereo : AudioData)
    (waveform : List (List ℚ)) (N : Nat)
    (hm_rate : mono.sampleRate = R) (hm : mono.channelCount = 1)
    (hs_rate : stereo.sampleRate = R) (hs : stereo.channelCount = 2)
    (hs_len : stereo.samples.length = 2 * N)
    (hw : waveform.length = 2) (hw_rows : ∀ row ∈ waveform, row.length = N) :
    (∃ ret, load_audio R mono = Except.ok ret ∧ ret.length = 2 ∧
      ∀ i, i < mono.samples.length →
        (ret.getD 0 []).getD i 0 = mono.samples.getD i 0 ∧
        (ret.getD 1 []).getD i 0 = mono.samples.getD i 0) ∧
    (∃ ret, load_audio R stereo = Except.ok ret ∧ ret.length = 2 ∧
      (∀ i, i < N →
        (ret.getD 0 []).getD i 0 = stereo.samples.getD (2 * i) 0 ∧
        (ret.getD 1 []).getD i 0 = stereo.samples.getD (2 * i + 1) 0) ∧
      (write_audio_file R ret).samples = stereo.samples) ∧
    load_audio R (write_audio_file R waveform) = Except.ok waveform := by
  have hN : stereo.samples.length / 2 = N := by omega
  refine ⟨⟨_, load_audio_mono R mono hm_rate hm, rfl, fun i _ => ⟨rfl, rfl⟩⟩,
    ⟨_, load_audio_stereo R stereo hs_rate hs, rfl, ?_, ?_⟩, ?_⟩
  · intro i hi
    rw [hN]
    exact ⟨map_range_getD 0 _ _ _ hi, map_range_getD 0 _ _ _ hi⟩
  · rw [hN]
    have hl : (([(List.range N).map (fun i => stereo.samples.getD (2 * i) 0),
        (List.range N).map (fun i => stereo.samples.getD (2 * i + 1) 0)] :
          List (List ℚ)).getD 0 []).length = N := by
      show ((List.range N).map _).length = N
      rw [List.length_map, List.length_range]
    apply ext_getD 0
    · rw [write_audio_file_length, hl, hs_len]
    · intro j hj
      rw [write_audio_file_length, hl] at hj
      rw [write_audio_file_getD R _ j (by rw [hl]; exact hj)]
      by_cases hp : j % 2 = 0
      · rw [if_pos hp]
        show ((List.range N).map _).getD (j / 2) 0 = _
        rw [map_range_getD 0 _ _ _ (by omega)]
        congr 1
        omega
      · rw [if_neg hp]
        show ((List.range N).map _).getD (j / 2) 0 = _
        rw [map_range_getD 0 _ _ _ (by omega)]
        congr 1
        omega
  · obtain ⟨x, y, hxy⟩ := List.length_eq_two.mp hw
    have hx : x.length = N := hw_rows x (by rw [hxy]; simp)
    have hy : y.length = N := hw_rows y (by rw [hxy]; simp)
    have hl0 : (waveform.getD 0 []).length = N := by rw [hxy]; exact hx
    have hlen : (write_audio_file R waveform).samples.length / 2 = N := by
      rw [write_audio_file_length, hl0]
      omega
    rw [load_audio_stereo R (write_audio_file R waveform) rfl rfl, hlen, hxy]
    congr 2
    · apply ext_getD 0
      · rw [List.length_map, List.length_range, hx]
      · intro i hi
        rw [List.length_map, List.length_range] at hi
        rw [map_range_getD 0 _ _ _ hi, ← hxy,
          write_audio_file_getD R waveform _ (by rw [hl0]; omega), if_pos (by omega), hxy]
        show x.getD (2 * i / 2) 0 = _
        congr 1
        omega
    · congr 1
      apply ext_getD 0
      · rw [List.length_map, List.length_range, hy]
      · intro i hi
        rw [List.length_map, List.length_range] at hi
        rw [map_range_getD 0 _ _ _ hi, ← hxy,
          write_audio_file_getD R waveform _ (by rw [hl0]; omega), if_neg (by omega), hxy]
        show y.getD ((2 * i + 1) / 2) 0 = _
        congr 1
        omega

/-- C14 for a mono file `1, 2, 3`, a stereo file `1, 4, 2, 5, 3, 6` and the waveform
`[[1, 2, 3], [4, 5, 6]]`. -/
theorem load_audio_channel_layout_witness :
    (∃ ret, load_audio 44100 mono_file = Except.ok ret ∧ ret.length = 2 ∧
      ∀ i, i < mono_file.samples.length →
        (ret.getD 0 []).getD i 0 = mono_file.samples.getD i 0 ∧
        (ret.getD 1 []).getD i 0 = mono_file.samples.getD i 0) ∧
    (∃ ret, load_audio 44100 stereo_file = Except.ok ret ∧ ret.length = 2 ∧
      (∀ i, i < 3 →
        (ret.getD 0 []).getD i 0 = stereo_file.samples.getD (2 * i) 0 ∧
        (ret.getD 1 []).getD i 0 = stereo_file.samples.getD (2 * i + 1) 0) ∧
      (write_audio_file 44100 ret).samples = stereo_file.samples) ∧
    load_audio 44100 (write_audio_file 44100 [[1, 2, 3], [4, 5, 6]]) =
      Except.ok [[1, 2, 3], [4, 5, 6]] :=
  load_audio_channel_layout 44100 mono_file stereo_file [[1, 2, 3], [4, 5, 6]] 3 rfl rfl rfl rfl
    rfl rfl (by decide)

/-! ## Guarded division in `istft_inner` -/

theorem window_sumsquare_length (k : Consts) (nb_frames len : Nat) (window : List ℚ) :
    (window_sumsquare k nb_frames len window).length = len := by
  rw [window_sumsquare, List.length_map, List.length_range]

theorem window_sumsquare_nonneg (k : Consts) (nb_frames len : Nat) (window : List ℚ) (p : Nat) :
    0 ≤ (window_sumsquare k nb_frames len window).getD p 0 := by
  by_cases hp : p < len
  · rw [window_sumsquare_getD _ _ _ _ _ hp]
    exact window_sq_cover_nonneg _ _ _ _
  · rw [getD_of_length_le 0 _ p (by rw [window_sumsquare_length]; omega)]

/-- C13. Division is guarded: when the normalization array is the one of section 4.1
(`normalization[j]` the sum over the frame starts `s ≤ j < s + W` of `window[j - s]²`), every
entry is `≥ 0`, and the divisor `normalized_window[start + i] + 1e-8` of the overlap-add of
`istft_inner` is strictly positive at every position of every frame. -/
theorem normalization_divisor_pos (k : Consts) (b : stft_buffers) (len : Nat)
    (hnorm : b.normalized_window = window_sumsquare k b.nb_frames len b.window) :
    (∀ p, 0 ≤ b.normalized_window.getD p 0) ∧
    (∀ f i, 0 < b.normalized_window.getD (f * k.FFT_HOP_SIZE + i) 0 + 1 / 100000000) ∧
    ∀ f i, i < k.FFT_WINDOW_SIZE →
      f * k.FFT_HOP_SIZE + i < b.padded_waveform_mono_out.length →
      (overlap_add k b (f * k.FFT_HOP_SIZE)).getD (f * k.FFT_HOP_SIZE + i) 0 =
        b.padded_waveform_mono_out.getD (f * k.FFT_HOP_SIZE + i) 0 +
          b.windowed_waveform_mono.getD i 0 * b.window.getD i 0 * 1 /
            (k.FFT_WINDOW_SIZE : ℚ) /
            (b.normalized_window.getD (f * k.FFT_HOP_SIZE + i) 0 + 1 / 100000000) := by
  have h0 : ∀ p, 0 ≤ b.normalized_window.getD p 0 := by
    intro p
    rw [hnorm]
    exact window_sumsquare_nonneg _ _ _ _ _
  refine ⟨h0, ?_, ?_⟩
  · intro f i
    have := h0 (f * k.FFT_HOP_SIZE + i)
    linarith
  · intro f i hi hp
    rw [overlap_add_getD, if_pos ⟨by omega, by omega, hp⟩, Nat.add_sub_cancel_left]

/-- C13 for window 4, hop 2 and the Hann window. -/
theorem normalization_divisor_pos_witness :
    (∀ p, 0 ≤ scenario_buffers.normalized_window.getD p 0) ∧
    (∀ f i, 0 < scenario_buffers.normalized_window.getD (f * consts4.FFT_HOP_SIZE + i) 0 +
      1 / 100000000) ∧
    ∀ f i, i < consts4.FFT_WINDOW_SIZE →
      f * consts4.FFT_HOP_SIZE + i < scenario_buffers.padded_waveform_mono_out.length →
      (overlap_add consts4 scenario_buffers (f * consts4.FFT_HOP_SIZE)).getD
          (f * consts4.FFT_HOP_SIZE + i) 0 =
        scenario_buffers.padded_waveform_mono_out.getD (f * consts4.FFT_HOP_SIZE + i) 0 +
          scenario_buffers.windowed_waveform_mono.getD i 0 * scenario_buffers.window.getD i 0 *
            1 / (consts4.FFT_WINDOW_SIZE : ℚ) /
            (scenario_buffers.normalized_window.getD (f * consts4.FFT_HOP_SIZE + i) 0 +
              1 / 100000000) :=
  normalization_divisor_pos consts4 scenario_buffers 10 rfl
/-! ## Index safety -/

theorem mem_copy_n_indices (start : Int) (count : Nat) (idx : Int) :
    idx ∈ copy_n_indices start count ↔ ∃ i, i < count ∧ idx = start + (i : Int) := by
  rw [copy_n_indices, List.mem_map]
  constructor
  · rintro ⟨i, hi, rfl⟩
    exact ⟨i, List.mem_range.mp hi, rfl⟩
  · rintro ⟨i, hi, rfl⟩
    exact ⟨i, List.mem_range.mpr hi, rfl⟩

/-- C12, as stated, fails: with `P = 2` and a padded buffer of `N + 2P = 5` slots for `N = 1 < P`
samples, every index `pad_signal` reads or writes is inside the padded buffer and inside the
scratch vectors. -/
theorem pad_signal_short_input_in_bounds :
    (short_buffers.waveform.getD 0 []).length < short_buffers.pad ∧
    short_buffers.padded_waveform_mono_in.length =
      (short_buffers.waveform.getD 0 []).length + 2 * short_buffers.pad ∧
    (∀ idx ∈ pad_signal_reads short_buffers ++ pad_signal_writes short_buffers,
      0 ≤ idx ∧ idx < short_buffers.padded_waveform_mono_in.length) ∧
    (∀ idx ∈ pad_signal_scratch_indices short_buffers short_buffers.pad_start,
      0 ≤ idx ∧ idx < short_buffers.pad_start.length) ∧
    (∀ idx ∈ pad_signal_scratch_indices short_buffers short_buffers.pad_end,
      0 ≤ idx ∧ idx < short_buffers.pad_end.length) := by
  decide

/-- C12, amended. For a padded buffer of `N + 2P` slots and scratch vectors of `P` slots, every
index `pad_signal` reads or writes is inside the padded buffer and the scratch vectors, for
every `N`; when `N < P` some of the slots read lie outside the centre `[P, P + N)`, in the edges
of the buffer that hold no sample of the signal. -/
theorem pad_signal_indices_in_bounds (b : stft_buffers) (N : Nat)
    (hlen : b.padded_waveform_mono_in.length = N + 2 * b.pad)
    (hs : b.pad_start.length = b.pad) (he : b.pad_end.length = b.pad) :
    (∀ idx ∈ pad_signal_reads b ++ pad_signal_writes b,
      0 ≤ idx ∧ idx < b.padded_waveform_mono_in.length) ∧
    (∀ idx ∈ pad_signal_scratch_indices b b.pad_start, 0 ≤ idx ∧ idx < b.pad_start.length) ∧
    (∀ idx ∈ pad_signal_scratch_indices b b.pad_end, 0 ≤ idx ∧ idx < b.pad_end.length) ∧
    (N < b.pad → ∃ idx ∈ pad_signal_reads b, ¬ ((b.pad : Int) ≤ idx ∧ idx < b.pad + N)) := by
  refine ⟨?_, ?_, ?_, ?_⟩
  · intro idx hidx
    simp only [pad_signal_reads, pad_signal_writes, List.mem_append, mem_copy_n_indices,
      hlen] at hidx
    rw [hlen]
    push_cast
    rcases hidx with (⟨i, hi, rfl⟩ | ⟨i, hi, rfl⟩) | (⟨i, hi, rfl⟩ | ⟨i, hi, rfl⟩) <;>
      push_cast <;> omega
  · intro idx hidx
    simp only [pad_signal_scratch_indices, List.mem_append, mem_copy_n_indices, hs] at hidx
    rw [hs]
    rcases hidx with (⟨i, hi, rfl⟩ | ⟨i, hi, rfl⟩) | ⟨i, hi, rfl⟩ <;> omega
  · intro idx hidx
    simp only [pad_signal_scratch_indices, List.mem_append, mem_copy_n_indices, he] at hidx
    rw [he]
    rcases hidx with (⟨i, hi, rfl⟩ | ⟨i, hi, rfl⟩) | ⟨i, hi, rfl⟩ <;> omega
  · intro hN
    refine ⟨(b.pad : Int) + ((b.pad - 1 : Nat) : Int), ?_, ?_⟩
    · rw [pad_signal_reads, List.mem_append]
      exact Or.inl ((mem_copy_n_indices _ _ _).mpr ⟨b.pad - 1, by omega, rfl⟩)
    · omega

/-- C12, amended, for `P = 2` and `N = 1`. -/
theorem pad_signal_indices_in_bounds_witness :
    (∀ idx ∈ pad_signal_reads short_buffers ++ pad_signal_writes short_buffers,
      0 ≤ idx ∧ idx < short_buffers.padded_waveform_mono_in.length) ∧
    (∀ idx ∈ pad_signal_scratch_indices short_buffers short_buffers.pad_start,
      0 ≤ idx ∧ idx < short_buffers.pad_start.length) ∧
    (∀ idx ∈ pad_signal_scratch_indices short_buffers short_buffers.pad_end,
      0 ≤ idx ∧ idx < short_buffers.pad_end.length) ∧
    (1 < short_buffers.pad → ∃ idx ∈ pad_signal_reads short_buffers,
      ¬ ((short_buffers.pad : Int) ≤ idx ∧ idx < short_buffers.pad + (1 : Nat))) :=
  pad_signal_indices_in_bounds short_buffers 1 (by decide) (by decide) (by decide)

/-! ## `istft` twice -/

/-- The body of the channel loop of `istft` on any workspace, for a hop `≥ 1`: the table rows
`< nb_frames` are the refilled rows scaled by `sqrt(W)` and the output buffer holds the
overlap-add sums. -/
theorem istft_channel_raw (k : Consts) (cfg : FFT) (b : stft_buffers) (ch : Nat)
    (hH : 0 < k.FFT_HOP_SIZE) :
    ∃ w t o, istft_channel k cfg b ch =
        some { b with windowed_waveform_mono := w, complex_spec_mono := t,
                      padded_waveform_mono_out := o,
                      waveform := b.waveform.set ch
                        ((o.drop b.pad).take (o.length - k.FFT_WINDOW_SIZE)) } ∧
      t.length = b.complex_spec_mono.length ∧
      o.length = b.padded_waveform_mono_out.length ∧
      (∀ j, t.getD j [] =
        if j < b.nb_frames ∧ j < b.complex_spec_mono.length then
          scale_bins (k.FFT_WINDOW_SIZE / 2 + 1) k.sqrt_window ((load_spec b ch).getD j [])
        else (load_spec b ch).getD j []) ∧
      (∀ p, o.getD p 0 = ola_out k cfg b ch p) := by
  obtain ⟨w, t, o, hst, htl, hol, hrow, hout⟩ := istft_frames_inv k cfg
    { b with complex_spec_mono := load_spec b ch,
             padded_waveform_mono_out := List.replicate b.padded_waveform_mono_out.length 0 }
    hH b.nb_frames
  refine ⟨w, t, o, ?_, ?_, ?_, ?_, ?_⟩
  · rw [istft_channel, istft_inner_eq k cfg _ hH]
    show Option.map _ (some (istft_frames k cfg _ 0 b.nb_frames)) = _
    rw [hst]
    rfl
  · rw [htl]
    exact load_spec_length b ch
  · rw [hol]
    show (List.replicate _ _).length = _
    rw [List.length_replicate]
  · intro j
    rw [hrow j]
    show (if j < b.nb_frames ∧ j < (load_spec b ch).length then _ else _) = _
    rw [load_spec_length]
  · intro p
    rw [hout p]
    show (List.replicate _ (0 : ℚ)).getD p 0 +
      ((List.range b.nb_frames).map (fun f =>
        if f * k.FFT_HOP_SIZE ≤ p ∧ p < f * k.FFT_HOP_SIZE + k.FFT_WINDOW_SIZE ∧
            p < (List.replicate b.padded_waveform_mono_out.length (0 : ℚ)).length then
          ola_term k cfg (scale_bins (k.FFT_WINDOW_SIZE / 2 + 1) k.sqrt_window
            ((load_spec b ch).getD f [])) b.window b.normalized_window (f * k.FFT_HOP_SIZE) p
        else 0)).sum = _
    rw [replicate_getD, zero_add, List.length_replicate]
    rfl

theorem AgreeBeyond.symm {n : Nat} {t t2 : List (List Cplx)} (h : AgreeBeyond n t t2) :
    AgreeBeyond n t2 t :=
  ⟨h.1.symm, fun j => ⟨(h.2 j).1.symm, fun i hi => ((h.2 j).2 i hi).symm⟩⟩

theorem AgreeBeyond.trans {n : Nat} {t t2 t3 : List (List Cplx)} (h : AgreeBeyond n t t2)
    (h2 : AgreeBeyond n t2 t3) : AgreeBeyond n t t3 :=
  ⟨h.1.trans h2.1, fun j => ⟨(h.2 j).1.trans (h2.2 j).1,
    fun i hi => ((h.2 j).2 i hi).trans ((h2.2 j).2 i hi)⟩⟩

/-- The copy loops of `istft` change only the first `nb_bins` entries of the table rows. -/
theorem load_spec_agree (b : stft_buffers) (ch : Nat) :
    AgreeBeyond b.nb_bins (load_spec b ch) b.complex_spec_mono := by
  refine ⟨load_spec_length b ch, fun j => ⟨load_spec_row_length b ch j, fun i hi => ?_⟩⟩
  rw [load_spec_getD]
  by_cases h : j < b.nb_frames ∧ j < b.complex_spec_mono.length
  · rw [if_pos h, foldl_set_getD_zero_off 0 (fun i _ => b.spec ch i j), if_neg (by omega)]
  · rw [if_neg h]

/-- The frame loop of `istft_inner` changes only the first `W / 2 + 1` entries of the table
rows. -/
theorem istft_table_agree (k : Consts) (b : stft_buffers) (ch : Nat) (t : List (List Cplx))
    (hbins : b.nb_bins = k.FFT_WINDOW_SIZE / 2 + 1)
    (htl : t.length = b.complex_spec_mono.length)
    (hrow : ∀ j, t.getD j [] =
      if j < b.nb_frames ∧ j < b.complex_spec_mono.length then
        scale_bins (k.FFT_WINDOW_SIZE / 2 + 1) k.sqrt_window ((load_spec b ch).getD j [])
      else (load_spec b ch).getD j []) :
    AgreeBeyond b.nb_bins t b.complex_spec_mono := by
  refine AgreeBeyond.trans ⟨htl.trans (load_spec_length b ch).symm, fun j => ?_⟩
    (load_spec_agree b ch)
  rw [hrow j]
  by_cases h : j < b.nb_frames ∧ j < b.complex_spec_mono.length
  · rw [if_pos h]
    refine ⟨scale_bins_length _ _ _, fun i hi => ?_⟩
    rw [scale_bins_getD, if_neg (by omega)]
  · rw [if_neg h]
    exact ⟨rfl, fun _ _ => rfl⟩

/-- The rows `< nb_frames` the copy loops of `istft` produce are the same for two workspaces
with the same spectrogram and shape whose tables agree beyond the first `nb_bins` entries. -/
theorem load_spec_congr (b b2 : stft_buffers) (ch j : Nat)
    (hspec : b2.spec = b.spec) (hnb : b2.nb_bins = b.nb_bins) (hnf : b2.nb_frames = b.nb_frames)
    (hag : AgreeBeyond b.nb_bins b2.complex_spec_mono b.complex_spec_mono)
    (hj : j < b.nb_frames) :
    (load_spec b2 ch).getD j [] = (load_spec b ch).getD j [] := by
  have hlen : ((load_spec b2 ch).getD j []).length = ((load_spec b ch).getD j []).length := by
    rw [load_spec_row_length, load_spec_row_length]
    exact (hag.2 j).1
  apply ext_getD 0 _ _ hlen
  intro i hi
  rw [load_spec_row_length] at hi
  rw [load_spec_getD, load_spec_getD, hnf, hnb, hspec, hag.1]
  by_cases h : j < b.nb_frames ∧ j < b.complex_spec_mono.length
  · rw [if_pos h, if_pos h, foldl_set_getD_zero_off 0 (fun i _ => b.spec ch i j),
      foldl_set_getD_zero_off 0 (fun i _ => b.spec ch i j), (hag.2 j).1]
    by_cases h2 : i < b.nb_bins ∧ i < (b.complex_spec_mono.getD j []).length
    · rw [if_pos h2, if_pos h2]
    · rw [if_neg h2, if_neg h2]
      exact (hag.2 j).2 i (by
        have := (hag.2 j).1
        omega)
  · rw [if_neg h, if_neg h]
    have e1 : b.complex_spec_mono.getD j [] = [] :=
      getD_of_length_le [] _ j (by omega)
    have e2 : b2.complex_spec_mono.getD j [] = [] :=
      getD_of_length_le [] _ j (by have := hag.1; omega)
    rw [e1, e2]

/-- The output buffer of a channel is the same for two workspaces with the same spectrogram,
windows and shape whose tables agree beyond the first `nb_bins` entries. -/
theorem ola_out_congr (k : Consts) (cfg : FFT) (b b2 : stft_buffers) (ch p : Nat)
    (hspec : b2.spec = b.spec) (hnb : b2.nb_bins = b.nb_bins) (hnf : b2.nb_frames = b.nb_frames)
    (hwin : b2.window = b.window) (hnorm : b2.normalized_window = b.normalized_window)
    (hol : b2.padded_waveform_mono_out.length = b.padded_waveform_mono_out.length)
    (hag : AgreeBeyond b.nb_bins b2.complex_spec_mono b.complex_spec_mono) :
    ola_out k cfg b2 ch p = ola_out k cfg b ch p := by
  rw [ola_out, ola_out, hnf, hwin, hnorm, hol]
  congr 1
  apply List.map_congr_left
  intro f hf
  rw [List.mem_range] at hf
  rw [load_spec_congr b b2 ch f hspec hnb hnf hag hf]
/-- Both channels of `istft` on a workspace with `nb_bins = W / 2 + 1` and a hop `≥ 1`: the call
returns, changes only the frame buffer, the table, the output buffer and the waveform, leaves a
table that agrees with the old one beyond the first `nb_bins` entries of each row, and each
waveform row is cut from the overlap-add sums of its channel. -/
theorem istft_raw (k : Consts) (cfg : FFT) (b : stft_buffers) (hH : 0 < k.FFT_HOP_SIZE)
    (hbins : b.nb_bins = k.FFT_WINDOW_SIZE / 2 + 1) :
    ∃ w t, istft k cfg b =
        some { b with
          windowed_waveform_mono := w
          complex_spec_mono := t
          padded_waveform_mono_out :=
            (List.range b.padded_waveform_mono_out.length).map (ola_out k cfg b 1)
          waveform := (b.waveform.set 0
            ((((List.range b.padded_waveform_mono_out.length).map (ola_out k cfg b 0)).drop
              b.pad).take (b.padded_waveform_mono_out.length - k.FFT_WINDOW_SIZE))).set 1
            ((((List.range b.padded_waveform_mono_out.length).map (ola_out k cfg b 1)).drop
              b.pad).take (b.padded_waveform_mono_out.length - k.FFT_WINDOW_SIZE)) } ∧
      AgreeBeyond b.nb_bins t b.complex_spec_mono := by
  obtain ⟨w0, t0, o0, h0, htl0, hol0, hrow0, hout0⟩ := istft_channel_raw k cfg b 0 hH
  have ag0 : AgreeBeyond b.nb_bins t0 b.complex_spec_mono :=
    istft_table_agree k b 0 t0 hbins htl0 hrow0
  have e0 : o0 = (List.range b.padded_waveform_mono_out.length).map (ola_out k cfg b 0) := by
    apply ext_getD 0
    · rw [hol0, List.length_map, List.length_range]
    · intro j hj
      rw [hout0 j, map_range_getD 0 _ _ _ (by omega)]
  obtain ⟨w1, t1, o1, h1, htl1, hol1, hrow1, hout1⟩ := istft_channel_raw k cfg
    { b with windowed_waveform_mono := w0, complex_spec_mono := t0,
             padded_waveform_mono_out := o0,
             waveform := b.waveform.set 0
               ((o0.drop b.pad).take (o0.length - k.FFT_WINDOW_SIZE)) } 1 hH
  have ag1 : AgreeBeyond b.nb_bins t1 t0 :=
    istft_table_agree k
      { b with windowed_waveform_mono := w0, complex_spec_mono := t0,
               padded_waveform_mono_out := o0,
               waveform := b.waveform.set 0
                 ((o0.drop b.pad).take (o0.length - k.FFT_WINDOW_SIZE)) } 1 t1 hbins htl1 hrow1
  have e1 : o1 = (List.range b.padded_waveform_mono_out.length).map (ola_out k cfg b 1) := by
    apply ext_getD 0
    · rw [hol1]
      show o0.length = _
      rw [hol0, List.length_map, List.length_range]
    · intro j hj
      have hj2 : j < b.padded_waveform_mono_out.length := by
        rw [hol1] at hj
        exact hol0 ▸ hj
      rw [hout1 j, map_range_getD 0 _ _ _ hj2]
      exact ola_out_congr k cfg b _ 1 j rfl rfl rfl rfl rfl hol0 ag0
  refine ⟨w1, t1, ?_, ag1.trans ag0⟩
  rw [istft_unfold, h0]
  show istft_channel k cfg _ 1 = _
  rw [h1]
  show some { b with windowed_waveform_mono := w1, complex_spec_mono := t1,
                     padded_waveform_mono_out := o1,
                     waveform := (b.waveform.set 0
                       ((o0.drop b.pad).take (o0.length - k.FFT_WINDOW_SIZE))).set 1
                       ((o1.drop b.pad).take (o1.length - k.FFT_WINDOW_SIZE)) } = _
  have l0 : o0.length = b.padded_waveform_mono_out.length := hol0
  have l1 : o1.length = b.padded_waveform_mono_out.length := hol1.trans hol0
  rw [l0, l1, ← e0, ← e1]

/-! ## The inverse transform on a table of `W / 2 + 1` bins per row -/

theorem scale_bins_exact (n : Nat) (s : ℚ) (row : List Cplx) (h : row.length = n) :
    scale_bins n s row = row.map (Cplx.scale s) := by
  have e := scale_bins_take n s row (by omega)
  rwa [List.take_of_length_le (by rw [scale_bins_length]; omega),
    List.take_of_length_le (by omega)] at e

/-- After the copy loops of `istft` a table row of exactly `nb_bins` entries is the frame of
the spectrogram. -/
theorem load_spec_exact (b : stft_buffers) (ch j : Nat) (hj : j < b.nb_frames)
    (hj2 : j < b.complex_spec_mono.length)
    (hlen : (b.complex_spec_mono.getD j []).length = b.nb_bins) :
    (load_spec b ch).getD j [] = spec_frame b ch j := by
  have e := load_spec_take b ch j hj hj2 (by omega)
  rwa [List.take_of_length_le (by rw [load_spec_row_length]; omega)] at e

theorem table_row_length (k : Consts) (b : stft_buffers) (htab : TableShaped k b) (j : Nat)
    (hj : j < b.complex_spec_mono.length) :
    (b.complex_spec_mono.getD j []).length = k.FFT_WINDOW_SIZE / 2 + 1 := by
  rw [List.getD_eq_getElem _ _ hj]
  exact htab _ (List.getElem_mem hj)

/-- On a well-formed workspace whose table rows hold `W / 2 + 1` entries, the value `istft`
leaves at position `p` of the output buffer is the sum of the overlap-add terms of the frames
of the spectrogram that cover `p`. -/
theorem ola_out_exact (k : Consts) (cfg : FFT) (b : stft_buffers) (N : Nat)
    (hwf : WellFormed k N b) (htab : TableShaped k b) (ch p : Nat)
    (hp : p < b.padded_waveform_mono_out.length) :
    ola_out k cfg b ch p =
      ((List.range b.nb_frames).map (fun f =>
        if f * k.FFT_HOP_SIZE ≤ p ∧ p < f * k.FFT_HOP_SIZE + k.FFT_WINDOW_SIZE then
          ola_term k cfg ((spec_frame b ch f).map (Cplx.scale k.sqrt_window))
            b.window b.normalized_window (f * k.FFT_HOP_SIZE) p
        else 0)).sum := by
  obtain ⟨-, hbins, -, -, -, -, htl, -, -, -, -, -, -⟩ := hwf
  rw [ola_out]
  congr 1
  apply List.map_congr_left
  intro f hf
  rw [List.mem_range] at hf
  by_cases h : f * k.FFT_HOP_SIZE ≤ p ∧ p < f * k.FFT_HOP_SIZE + k.FFT_WINDOW_SIZE
  · rw [if_pos ⟨h.1, h.2, hp⟩, if_pos h,
      load_spec_exact b ch f hf (by omega)
        (by rw [table_row_length k b htab f (by omega), hbins]),
      scale_bins_exact _ _ _ (by
        rw [spec_frame, List.length_map, List.length_range]
        exact hbins)]
  · rw [if_neg (fun hh => h ⟨hh.1, hh.2.1⟩), if_neg h]

/-- The rows `istft` writes to the waveform of a well-formed workspace whose table rows hold
`W / 2 + 1` entries: two rows of `N` samples, each sample the overlap-add sum of section 4.4. -/
theorem istft_rows_exact (k : Consts) (cfg : FFT) (b : stft_buffers) (N : Nat)
    (hwf : WellFormed k N b) (htab : TableShaped k b) :
    ((b.waveform.set 0
        ((((List.range b.padded_waveform_mono_out.length).map (ola_out k cfg b 0)).drop
          b.pad).take (b.padded_waveform_mono_out.length - k.FFT_WINDOW_SIZE))).set 1
        ((((List.range b.padded_waveform_mono_out.length).map (ola_out k cfg b 1)).drop
          b.pad).take (b.padded_waveform_mono_out.length - k.FFT_WINDOW_SIZE))).length = 2 ∧
    (∀ row ∈ (b.waveform.set 0
        ((((List.range b.padded_waveform_mono_out.length).map (ola_out k cfg b 0)).drop
          b.pad).take (b.padded_waveform_mono_out.length - k.FFT_WINDOW_SIZE))).set 1
        ((((List.range b.padded_waveform_mono_out.length).map (ola_out k cfg b 1)).drop
          b.pad).take (b.padded_waveform_mono_out.length - k.FFT_WINDOW_SIZE)),
      row.length = N) ∧
    ∀ c, c < 2 → ∀ n, n < N →
      (((b.waveform.set 0
        ((((List.range b.padded_waveform_mono_out.length).map (ola_out k cfg b 0)).drop
          b.pad).take (b.padded_waveform_mono_out.length - k.FFT_WINDOW_SIZE))).set 1
        ((((List.range b.padded_waveform_mono_out.length).map (ola_out k cfg b 1)).drop
          b.pad).take (b.padded_waveform_mono_out.length - k.FFT_WINDOW_SIZE))).getD c []).getD
          n 0 = overlap_add_sum k cfg b c n := by
  have hwf2 := hwf
  obtain ⟨hW, -, -, -, hout, -, -, -, -, hwav, -, -, -⟩ := hwf2
  have hl : ∀ ch, ((List.range b.padded_waveform_mono_out.length).map
      (ola_out k cfg b ch)).length = N + k.FFT_WINDOW_SIZE := by
    intro ch
    rw [List.length_map, List.length_range, hout]
  have hrow : ∀ ch, (((List.range b.padded_waveform_mono_out.length).map
      (ola_out k cfg b ch)).drop b.pad).take
        (b.padded_waveform_mono_out.length - k.FFT_WINDOW_SIZE) =
      (((List.range b.padded_waveform_mono_out.length).map (ola_out k cfg b ch)).drop b.pad).take
        (((List.range b.padded_waveform_mono_out.length).map (ola_out k cfg b ch)).length -
          k.FFT_WINDOW_SIZE) := by
    intro ch
    rw [hl ch, hout]
  have hsum : ∀ ch, ∀ p, p < ((List.range b.padded_waveform_mono_out.length).map
        (ola_out k cfg b ch)).length →
      ((List.range b.padded_waveform_mono_out.length).map (ola_out k cfg b ch)).getD p 0 =
        ((List.range b.nb_frames).map (fun f =>
          if f * k.FFT_HOP_SIZE ≤ p ∧ p < f * k.FFT_HOP_SIZE + k.FFT_WINDOW_SIZE then
            ola_term k cfg ((spec_frame b ch f).map (Cplx.scale k.sqrt_window))
              b.window b.normalized_window (f * k.FFT_HOP_SIZE) p
          else 0)).sum := by
    intro ch p hp
    rw [List.length_map, List.length_range] at hp
    rw [map_range_getD 0 _ _ _ hp, ola_out_exact k cfg b N hwf htab ch p hp]
  obtain ⟨x, y, hxy⟩ := List.length_eq_two.mp hwav
  rw [hxy, hrow 0, hrow 1]
  refine ⟨rfl, ?_, ?_⟩
  · intro row hr
    have hr2 : row ∈ [(((List.range b.padded_waveform_mono_out.length).map
          (ola_out k cfg b 0)).drop b.pad).take
          (((List.range b.padded_waveform_mono_out.length).map (ola_out k cfg b 0)).length -
            k.FFT_WINDOW_SIZE),
        (((List.range b.padded_waveform_mono_out.length).map
          (ola_out k cfg b 1)).drop b.pad).take
          (((List.range b.padded_waveform_mono_out.length).map (ola_out k cfg b 1)).length -
            k.FFT_WINDOW_SIZE)] := hr
    simp only [List.mem_cons, List.mem_singleton, List.not_mem_nil, or_false] at hr2
    rcases hr2 with rfl | rfl
    · exact output_row_length _ N _ _ (hl 0) hW
    · exact output_row_length _ N _ _ (hl 1) hW
  · intro c hc n hn
    obtain rfl | rfl : c = 0 ∨ c = 1 := by omega
    · exact output_row_getD k cfg b 0 _ N n (hl 0) hW hn (hsum 0)
    · exact output_row_getD k cfg b 1 _ N n (hl 1) hW hn (hsum 1)

/-- C8. Zero preservation.  For `N ≥ P` and transform primitives that map the zero vector to
the zero vector: `stft` of a well-formed workspace whose waveform is all zero writes zero to
every entry `spec(c, bin, f)`, and `istft` of a well-formed workspace whose table rows hold
`W / 2 + 1` entries and whose spectrogram is all zero writes zero to every sample of the
waveform, whatever the scratch buffers held before. -/
theorem zero_preservation (k : Consts) (cfg : FFT) (b b2 : stft_buffers) (N : Nat)
    (hwf : WellFormed k N b) (hwf2 : WellFormed k N b2) (htab2 : TableShaped k b2)
    (hsz : N + k.FFT_WINDOW_SIZE < 2 ^ 64) (hH : 0 < k.FFT_HOP_SIZE) (hNP : b.pad ≤ N)
    (hfwd0 : ∀ i, (cfg.fwd (List.replicate k.FFT_WINDOW_SIZE 0)).getD i 0 = 0)
    (hinv0 : ∀ i, (cfg.inv (List.replicate (k.FFT_WINDOW_SIZE / 2 + 1) 0)).getD i 0 = 0)
    (hwave : ∀ row ∈ b.waveform, ∀ x ∈ row, x = 0)
    (hspec : ∀ c, c < 2 → ∀ bin, bin < b2.nb_bins → ∀ f, f < b2.nb_frames →
      b2.spec c bin f = 0) :
    (∃ r, stft k cfg b = some r ∧
      ∀ c, c < 2 → ∀ bin, bin < b.nb_bins → ∀ f, f < b.nb_frames → r.spec c bin f = 0) ∧
    (∃ r2, istft k cfg b2 = some r2 ∧ r2.waveform.length = 2 ∧
      (∀ row ∈ r2.waveform, row.length = N) ∧
      ∀ c, c < 2 → ∀ n, n < N → (r2.waveform.getD c []).getD n 0 = 0) := by
  constructor
  · obtain ⟨r, hr, -, -, -, -, -, -, -, -, -, -, hsp⟩ := stft_post k cfg b N hwf hsz hH
    refine ⟨r, hr, ?_⟩
    intro c hc bin hbin f hf
    have hrow0 : ∀ x ∈ b.waveform.getD c [], x = 0 := by
      have hc2 : c < b.waveform.length := by
        rw [hwf.2.2.2.2.2.2.2.2.2.1]; exact hc
      rw [List.getD_eq_getElem _ _ hc2]
      exact hwave _ (List.getElem_mem hc2)
    rw [hsp c bin f, if_pos ⟨hc, hbin, hf⟩,
      frame_row_getD _ _ _ _ _ _ (by rw [← hwf.2.1]; exact hbin),
      padded_channel_eq_mirror_pad k N b hwf hNP c hc,
      windowed_frame_zero k _ _ _ (mirror_pad_getD_zero _ _ hrow0), hfwd0, Cplx.scale_zero]
  · obtain ⟨w, t, h, -⟩ := istft_raw k cfg b2 hH hwf2.2.1
    obtain ⟨h2, hN, hval⟩ := istft_rows_exact k cfg b2 N hwf2 htab2
    refine ⟨_, h, h2, hN, ?_⟩
    intro c hc n hn
    refine (hval c hc n hn).trans ?_
    rw [overlap_add_sum]
    apply List.sum_eq_zero
    intro x hx
    rw [List.mem_map] at hx
    obtain ⟨f, hf, rfl⟩ := hx
    rw [List.mem_range] at hf
    split_ifs
    · rw [spec_frame_zero b2 c f (fun bin hbin => hspec c hc bin hbin f hf), hwf2.2.1, hinv0,
        zero_mul, zero_div, zero_div]
    · rfl

/-- C8 for window 4, hop 2 and 6 samples per channel, with the 4-point transform; the table
rows of the second workspace hold 3 stale non-zero entries. -/
theorem zero_preservation_witness :
    (∃ r, stft consts4 fft4 zero_wave_buffers = some r ∧
      ∀ c, c < 2 → ∀ bin, bin < zero_wave_buffers.nb_bins →
        ∀ f, f < zero_wave_buffers.nb_frames → r.spec c bin f = 0) ∧
    (∃ r2, istft consts4 fft4 zero_spec_buffers = some r2 ∧ r2.waveform.length = 2 ∧
      (∀ row ∈ r2.waveform, row.length = 6) ∧
      ∀ c, c < 2 → ∀ n, n < 6 → (r2.waveform.getD c []).getD n 0 = 0) :=
  zero_preservation consts4 fft4 zero_wave_buffers zero_spec_buffers 6 (by decide) (by decide)
    (by decide) (by decide) (by decide) (by decide) fft4_fwd_zero fft4_inv_zero (by decide)
    (fun _ _ _ _ _ _ => rfl)

/-! ## The frame effect of `istft` -/

theorem padded_channel_length (k : Consts) (N : Nat) (b : stft_buffers)
    (hwf : WellFormed k N b) (c : Nat) (hc : c < 2) :
    (padded_channel b c).length = N + k.FFT_WINDOW_SIZE := by
  have hin := hwf.2.2.2.1
  have h0 : (padded_channel b 0).length = N + k.FFT_WINDOW_SIZE := by
    show (pad_signal (load_row b 0)).padded_waveform_mono_in.length = _
    rw [pad_signal_length, load_row_length, hin]
  obtain rfl | rfl : c = 0 ∨ c = 1 := by omega
  · exact h0
  · show (pad_signal (load_row
      { b with padded_waveform_mono_in := padded_channel b 0 } 1)).padded_waveform_mono_in.length
        = _
    rw [pad_signal_length, load_row_length]
    exact h0

/-- C2. Forward transform result: on a workspace well-formed for `N` samples `stft` returns,
and for each channel `c < 2` the padded buffer `padded_c` it transforms has `N + W` samples,
holds the row of channel `c` at offset `P` (`padded_c[P + n] = waveform(c, n)`, `n < N`) and,
when `N ≥ P`, is that row with the edges `pad_signal` writes (the reversed first and last `P`
samples of the row); for every bin `< W / 2 + 1` and frame `f < nb_frames`, `spec(c, bin, f)` is
`1 / sqrt(W)` times bin `bin` of the forward transform of the frame
`windowed[i] = padded_c[f * H + i] * window[i]`, `i < W`. -/
theorem stft_spec_value (k : Consts) (cfg : FFT) (b : stft_buffers) (N : Nat)
    (hwf : WellFormed k N b) (hsz : N + k.FFT_WINDOW_SIZE < 2 ^ 64)
    (hH : 0 < k.FFT_HOP_SIZE) :
    ∃ r, stft k cfg b = some r ∧
      ∀ c, c < 2 →
        (padded_channel b c).length = N + k.FFT_WINDOW_SIZE ∧
        (∀ n, n < N →
          (padded_channel b c).getD (b.pad + n) 0 = (b.waveform.getD c []).getD n 0) ∧
        (b.pad ≤ N → padded_channel b c = mirror_pad b.pad (b.waveform.getD c [])) ∧
        ∀ bin, bin < k.FFT_WINDOW_SIZE / 2 + 1 → ∀ f, f < b.nb_frames →
          r.spec c bin f = Cplx.scale (1 / k.sqrt_window)
            ((cfg.fwd ((List.range k.FFT_WINDOW_SIZE).map (fun i =>
              (padded_channel b c).getD (f * k.FFT_HOP_SIZE + i) 0 * b.window.getD i 0))).getD
              bin 0) := by
  obtain ⟨r, hr, -, -, -, -, -, -, -, -, -, -, hspec⟩ := stft_post k cfg b N hwf hsz hH
  refine ⟨r, hr, ?_⟩
  intro c hc
  refine ⟨padded_channel_length k N b hwf c hc, ?_, ?_, ?_⟩
  · intro n hn
    rw [Nat.add_comm]
    exact padded_channel_centre k N b hwf c hc n hn
  · intro hNP
    exact padded_channel_eq_mirror_pad k N b hwf hNP c hc
  · intro bin hbin f hf
    rw [hspec c bin f, if_pos ⟨hc, by rw [hwf.2.1]; exact hbin, hf⟩,
      frame_row_getD _ _ _ _ _ _ hbin]
    rfl

/-- C2 for window 4, hop 2 and the waveform `[[1,2,3,4,5,6],[6,5,4,3,2,1]]`. -/
theorem stft_spec_value_witness :
    ∃ r, stft consts4 fft4 scenario_buffers = some r ∧
      ∀ c, c < 2 →
        (padded_channel scenario_buffers c).length = 6 + consts4.FFT_WINDOW_SIZE ∧
        (∀ n, n < 6 →
          (padded_channel scenario_buffers c).getD (scenario_buffers.pad + n) 0 =
            (scenario_buffers.waveform.getD c []).getD n 0) ∧
        (scenario_buffers.pad ≤ 6 → padded_channel scenario_buffers c =
          mirror_pad scenario_buffers.pad (scenario_buffers.waveform.getD c [])) ∧
        ∀ bin, bin < consts4.FFT_WINDOW_SIZE / 2 + 1 → ∀ f, f < scenario_buffers.nb_frames →
          r.spec c bin f = Cplx.scale (1 / consts4.sqrt_window)
            ((fft4.fwd ((List.range consts4.FFT_WINDOW_SIZE).map (fun i =>
              (padded_channel scenario_buffers c).getD (f * consts4.FFT_HOP_SIZE + i) 0 *
                scenario_buffers.window.getD i 0))).getD bin 0) :=
  stft_spec_value consts4 fft4 scenario_buffers 6 (by decide) (by decide) (by decide)

/-! ## Index safety of the frame loops -/

theorem stft_loop_trace_eq (k : Consts) (bound : Nat) (m : Nat) :
    ∀ (fuel start frame_idx : Nat), m ≤ fuel →
      (∀ i, i < m → start + i * k.FFT_HOP_SIZE ≤ bound) →
      bound < start + m * k.FFT_HOP_SIZE →
      start + m * k.FFT_HOP_SIZE < 2 ^ 64 →
      frame_idx + m ≤ INT_MAX →
      stft_loop_trace k bound fuel start frame_idx =
        Except.ok ((List.range m).map
          (fun i => (start + i * k.FFT_HOP_SIZE, frame_idx + i))) := by
  induction m with
  | zero =>
    intro fuel start frame_idx _ _ h _ _
    have h1 : ¬ start ≤ bound := by omega
    cases fuel <;> simp [stft_loop_trace, h1]
  | succ m ih =>
    intro fuel start frame_idx hf hin hout hsz hint
    obtain ⟨fuel, rfl⟩ : ∃ f, fuel = f + 1 := ⟨fuel - 1, by omega⟩
    have h0 : start ≤ bound := by simpa using hin 0 (Nat.succ_pos m)
    have h1 : ¬ INT_MAX ≤ frame_idx := by omega
    rw [Nat.add_mul, Nat.one_mul] at hout hsz
    have h2 : (start + k.FFT_HOP_SIZE) % 2 ^ 64 = start + k.FFT_HOP_SIZE :=
      Nat.mod_eq_of_lt (by omega)
    rw [stft_loop_trace, if_pos h0, if_neg h1, h2, ih fuel _ _ (by omega),
      List.range_succ_eq_map]
    · show Except.ok _ = Except.ok _
      simp only [List.map_cons, List.map_map, Nat.zero_mul, Nat.add_zero]
      congr 2
      apply List.map_congr_left
      intro i _
      simp only [Function.comp, Nat.succ_eq_add_one, Nat.add_mul, Nat.one_mul]
      congr 1 <;> omega
    · intro i hi
      have := hin (i + 1) (by omega)
      rw [Nat.add_mul, Nat.one_mul] at this
      omega
    · omega
    · omega
    · omega

theorem istft_loop_trace_eq (k : Consts) (bound : Nat) (m : Nat) :
    ∀ (fuel start : Nat), m ≤ fuel →
      (∀ i, i < m → start + i * k.FFT_HOP_SIZE < bound) →
      bound ≤ start + m * k.FFT_HOP_SIZE →
      start + m * k.FFT_HOP_SIZE ≤ INT_MAX →
      (0 < m → start + (m - 1) * k.FFT_HOP_SIZE + (k.FFT_WINDOW_SIZE - 1) ≤ INT_MAX) →
      istft_loop_trace k bound fuel start =
        Except.ok ((List.range m).map (fun i =>
          (start + i * k.FFT_HOP_SIZE, (start + i * k.FFT_HOP_SIZE) / k.FFT_HOP_SIZE))) := by
  induction m with
  | zero =>
    intro fuel start _ _ h _ _
    have h1 : ¬ start < bound := by omega
    cases fuel <;> simp [istft_loop_trace, h1]
  | succ m ih =>
    intro fuel start hf hin hout hint hidx
    obtain ⟨fuel, rfl⟩ : ∃ f, fuel = f + 1 := ⟨fuel - 1, by omega⟩
    have h0 : start < bound := by simpa using hin 0 (Nat.succ_pos m)
    rw [Nat.add_mul, Nat.one_mul] at hout hint
    have hidx2 := hidx (Nat.succ_pos m)
    rw [Nat.add_sub_cancel] at hidx2
    have hm : 0 ≤ m * k.FFT_HOP_SIZE := Nat.zero_le _
    have h1 : ¬ INT_MAX < start + (k.FFT_WINDOW_SIZE - 1) := by omega
    have h2 : ¬ INT_MAX < start + k.FFT_HOP_SIZE := by omega
    rw [istft_loop_trace, if_pos h0, if_neg h1, if_neg h2, ih fuel _ (by omega),
      List.range_succ_eq_map]
    · show Except.ok _ = Except.ok _
      simp only [List.map_cons, List.map_map, Nat.zero_mul, Nat.add_zero]
      congr 2
      apply List.map_congr_left
      intro i _
      simp only [Function.comp, Nat.succ_eq_add_one, Nat.add_mul, Nat.one_mul]
      have e : start + k.FFT_HOP_SIZE + i * k.FFT_HOP_SIZE =
          start + (i * k.FFT_HOP_SIZE + k.FFT_HOP_SIZE) := by omega
      rw [e]
    · intro i hi
      have := hin (i + 1) (by omega)
      rw [Nat.add_mul, Nat.one_mul] at this
      omega
    · omega
    · omega
    · intro hm0
      obtain ⟨m2, rfl⟩ : ∃ m2, m = m2 + 1 := ⟨m - 1, by omega⟩
      rw [Nat.add_sub_cancel]
      rw [Nat.add_mul, Nat.one_mul] at hidx2
      omega

/-- C15, as stated, fails: for window 4, hop 2 and `N = 2 ^ 31` samples, the workspace has
`N / H + 1 = 2 ^ 30 + 1` frames and the loop bound `nb_frames * FFT_HOP_SIZE` of `istft_inner`
(line 250), a product of `int` values, is `2 ^ 31 + 2 > INT_MAX`: the walk through the frame
loop ends in a signed overflow and certifies no index. -/
theorem istft_frame_loop_overflows :
    (2147483648 / consts4.FFT_HOP_SIZE + 1) * consts4.FFT_HOP_SIZE = 2147483650 ∧
    INT_MAX < (2147483648 / consts4.FFT_HOP_SIZE + 1) * consts4.FFT_HOP_SIZE ∧
    istft_inner_trace consts4 (2147483648 / consts4.FFT_HOP_SIZE + 1) =
      Except.error LoopFault.signed_overflow :=
  ⟨by decide, by decide, rfl⟩

/-- C15, amended. Index safety of the frame loops within the range of `int`: for a hop `≥ 1`,
`N + W ≤ INT_MAX` and `N + H ≤ INT_MAX`, padded buffers and a normalization array of `N + W`
slots, `nb_frames = N / H + 1` and a frame table of `nb_frames` rows, both frame loops terminate
without signed overflow, every access `padded_waveform_mono_in[start + i]` of `stft_inner` and
`padded_waveform_mono_out[start + i]`, `normalized_window[start + i]` of `istft_inner`
(`i < W`) is in range, every `frame_idx` used is `< nb_frames`, and the `size_t` bound
`padded_waveform_mono_in.size() - FFT_WINDOW_SIZE` does not wrap around. -/
theorem frame_loops_index_safe (k : Consts) (b : stft_buffers) (N : Nat)
    (hH : 1 ≤ k.FFT_HOP_SIZE)
    (hiW : N + k.FFT_WINDOW_SIZE ≤ INT_MAX) (hiH : N + k.FFT_HOP_SIZE ≤ INT_MAX)
    (hin : b.padded_waveform_mono_in.length = N + k.FFT_WINDOW_SIZE)
    (hout : b.padded_waveform_mono_out.length = N + k.FFT_WINDOW_SIZE)
    (hnl : b.normalized_window.length = N + k.FFT_WINDOW_SIZE)
    (hframes : b.nb_frames = N / k.FFT_HOP_SIZE + 1)
    (htab : b.complex_spec_mono.length = b.nb_frames) :
    (∃ ts, stft_inner_trace k b = Except.ok ts ∧
      ∀ p ∈ ts, (∀ i, i < k.FFT_WINDOW_SIZE →
          p.1 + i < b.padded_waveform_mono_in.length ∧ p.1 + i < 2 ^ 64) ∧
        p.2 < b.nb_frames ∧ p.2 < b.complex_spec_mono.length ∧ p.2 < INT_MAX) ∧
    (∃ ti, istft_inner_trace k b.nb_frames = Except.ok ti ∧
      ∀ p ∈ ti, (∀ i, i < k.FFT_WINDOW_SIZE →
          p.1 + i < b.padded_waveform_mono_out.length ∧ p.1 + i < b.normalized_window.length ∧
          p.1 + i ≤ INT_MAX) ∧
        p.2 < b.nb_frames ∧ p.2 < b.complex_spec_mono.length) ∧
    k.FFT_WINDOW_SIZE ≤ b.padded_waveform_mono_in.length ∧
    stft_bound k b = b.padded_waveform_mono_in.length - k.FFT_WINDOW_SIZE := by
  have hI : INT_MAX = 2147483647 := rfl
  have hsz : N + k.FFT_WINDOW_SIZE < 2 ^ 64 := by omega
  have hb : stft_bound k b = N := stft_bound_eq k b N hin hsz
  have hmul : (N / k.FFT_HOP_SIZE + 1) * k.FFT_HOP_SIZE ≤ N + k.FFT_HOP_SIZE := by
    rw [Nat.add_mul, Nat.one_mul]
    have := Nat.div_mul_le_self N k.FFT_HOP_SIZE
    omega
  have hdiv := Nat.div_le_self N k.FFT_HOP_SIZE
  refine ⟨⟨(List.range (N / k.FFT_HOP_SIZE + 1)).map
      (fun i => (0 + i * k.FFT_HOP_SIZE, 0 + i)), ?_, ?_⟩,
    ⟨(List.range b.nb_frames).map (fun i =>
      (0 + i * k.FFT_HOP_SIZE, (0 + i * k.FFT_HOP_SIZE) / k.FFT_HOP_SIZE)), ?_, ?_⟩,
    by omega, by rw [hb, hin]; omega⟩
  · rw [stft_inner_trace, hb]
    exact stft_loop_trace_eq k N (N / k.FFT_HOP_SIZE + 1) (N + 1) 0 0
      (by omega)
      (fun i hi => by rw [Nat.zero_add]; exact le_of_lt_succ_div N _ i hi)
      (by rw [Nat.zero_add]; exact lt_succ_div_mul N _ hH)
      (by omega) (by omega)
  · intro p hp
    rw [List.mem_map] at hp
    obtain ⟨f, hf, rfl⟩ := hp
    rw [List.mem_range] at hf
    have h1 := le_of_lt_succ_div N k.FFT_HOP_SIZE f hf
    refine ⟨fun i hi => ?_, ?_, ?_, ?_⟩
    · show 0 + f * k.FFT_HOP_SIZE + i < _ ∧ 0 + f * k.FFT_HOP_SIZE + i < _
      omega
    · show 0 + f < _
      omega
    · show 0 + f < _
      omega
    · show 0 + f < _
      omega
  · have hle : ¬ INT_MAX < b.nb_frames * k.FFT_HOP_SIZE := by
      rw [hframes]
      omega
    rw [istft_inner_trace, if_neg hle]
    refine istft_loop_trace_eq k _ b.nb_frames _ 0 (Nat.le_mul_of_pos_right _ hH)
      (fun i hi => by rw [Nat.zero_add]; exact Nat.mul_lt_mul_of_pos_right hi hH)
      (by rw [Nat.zero_add]) (by rw [Nat.zero_add, hframes]; omega) ?_
    intro _
    rw [hframes, Nat.add_sub_cancel, Nat.zero_add]
    have := Nat.div_mul_le_self N k.FFT_HOP_SIZE
    omega
  · intro p hp
    rw [List.mem_map] at hp
    obtain ⟨f, hf, rfl⟩ := hp
    rw [List.mem_range] at hf
    have h1 := le_of_lt_succ_div N k.FFT_HOP_SIZE f (by omega)
    have h2 : (0 + f * k.FFT_HOP_SIZE) / k.FFT_HOP_SIZE = f := by
      rw [Nat.zero_add, Nat.mul_div_cancel _ hH]
    refine ⟨fun i hi => ?_, ?_, ?_⟩
    · show 0 + f * k.FFT_HOP_SIZE + i < _ ∧ 0 + f * k.FFT_HOP_SIZE + i < _ ∧
        0 + f * k.FFT_HOP_SIZE + i ≤ _
      omega
    · show (0 + f * k.FFT_HOP_SIZE) / k.FFT_HOP_SIZE < _
      omega
    · show (0 + f * k.FFT_HOP_SIZE) / k.FFT_HOP_SIZE < _
      omega

/-- C15, amended, for window 4, hop 2 and 6 samples. -/
theorem frame_loops_index_safe_witness :
    (∃ ts, stft_inner_trace consts4 scenario_buffers = Except.ok ts ∧
      ∀ p ∈ ts, (∀ i, i < consts4.FFT_WINDOW_SIZE →
          p.1 + i < scenario_buffers.padded_waveform_mono_in.length ∧ p.1 + i < 2 ^ 64) ∧
        p.2 < scenario_buffers.nb_frames ∧ p.2 < scenario_buffers.complex_spec_mono.length ∧
        p.2 < INT_MAX) ∧
    (∃ ti, istft_inner_trace consts4 scenario_buffers.nb_frames = Except.ok ti ∧
      ∀ p ∈ ti, (∀ i, i < consts4.FFT_WINDOW_SIZE →
          p.1 + i < scenario_buffers.padded_waveform_mono_out.length ∧
          p.1 + i < scenario_buffers.normalized_window.length ∧ p.1 + i ≤ INT_MAX) ∧
        p.2 < scenario_buffers.nb_frames ∧ p.2 < scenario_buffers.complex_spec_mono.length) ∧
    consts4.FFT_WINDOW_SIZE ≤ scenario_buffers.padded_waveform_mono_in.length ∧
    stft_bound consts4 scenario_buffers =
      scenario_buffers.padded_waveform_mono_in.length - consts4.FFT_WINDOW_SIZE :=
  frame_loops_index_safe consts4 scenario_buffers 6 (by decide) (by decide) (by decide)
    (by decide) (by decide) (by decide) (by decide) (by decide)

/-! ## Absence of precondition checks in `stft` and `istft` -/

end demucscpp
